import Mathlib

/-!
Shallow embedding of `crates/uv-resolver/src/resolution.rs`:
`ResolutionGraph::from_state` and the `Display` implementation for
`DisplayResolutionGraph`, together with the auxiliary data they consume.

Modelling conventions:
* machine strings are Lean `String` (compared character-wise, which agrees
  with Rust's byte-wise order on ASCII data);
* versions are `Nat` (the code only ever compares versions for equality and
  asks a range whether it contains a version);
* the external `pubgrub::range::Range<Version>` type is modelled as a closed
  interval — the code only calls its `contains` method and clones it;
* Rust panics (`expect`, `unwrap_or_else(|| panic!(..))`, panicking `Index`
  lookups) and the `?`-propagated construction errors are both modelled as
  `Option.none`: a `none` result of `ResolutionGraph.from_state` means the
  construction aborted;
* the concurrent lookup tables (`OnceMap`, `DashMap`, `FxHashMap`) are
  modelled as association lists read through point lookups only;
* ANSI colouring (`owo_colors`) is omitted: `green()` is the identity.
-/

namespace UvResolve

/-! ## Executable string helpers

Lean's built-in `String.le`, `String.splitOn` and `String.trimRight` are not
kernel-reducible, so character-level equivalents are defined here. -/

/-- Lexicographic comparison of character lists (Rust `str` ordering). -/
def charListLe : List Char → List Char → Bool
  | [], _ => true
  | _ :: _, [] => false
  | a :: as, b :: bs => if a = b then charListLe as bs else decide (a.toNat < b.toNat)

/-- Lexicographic comparison of strings (Rust `str`/`PackageName` ordering). -/
def strLe (a b : String) : Bool := charListLe a.toList b.toList

/-- Insert into a list sorted by `le` (helper for `sortBy`). -/
def insertBy (le : α → α → Bool) (a : α) : List α → List α
  | [] => [a]
  | b :: bs => if le a b then a :: b :: bs else b :: insertBy le a bs

/-- Sort by the boolean total order `le`; models Rust's `sort_unstable_by_key`
(for the total, antisymmetric orders used here the result is unique). -/
def sortBy (le : α → α → Bool) : List α → List α
  | [] => []
  | a :: as => insertBy le a (sortBy le as)

/-- Drop trailing whitespace from a character list. -/
def dropTrailingWs (l : List Char) : List Char :=
  (l.reverse.dropWhile (fun c => c.isWhitespace)).reverse

/-- Rust `str::trim_end`. -/
def trimEndS (s : String) : String := String.mk (dropTrailingWs s.toList)

/-- Split a character list at newline characters. -/
def splitNlChars : List Char → List (List Char)
  | [] => [[]]
  | c :: cs =>
    match splitNlChars cs with
    | [] => [[c]]
    | g :: gs => if c = '\n' then [] :: g :: gs else (c :: g) :: gs

/-- Rust `str::lines` for strings that do not end in a newline (the only way
the renderer uses it). -/
def linesOf (s : String) : List String := (splitNlChars s.toList).map String.mk

/-- Rust `format!` padding `{s:w}`: left-aligned, space-padded to width `w`. -/
def padToWidth (w : Nat) (s : String) : String :=
  s ++ String.mk (List.replicate (w - s.length) ' ')

/-- Point lookup in an association list; models point lookups in the various
hash maps (`FxHashMap`, `OnceMap`, `DashMap`), whose most recent insertion
for a key is the one observed. -/
def assocLookup [DecidableEq κ] (l : List (κ × β)) (k : κ) : Option β :=
  (l.find? (fun p => p.1 = k)).map (fun p => p.2)

/-! ## Data model -/

/-- Package names (`uv_normalize::PackageName`). -/
abbrev PackageName := String

/-- Extra names (`uv_normalize::ExtraName`). -/
abbrev ExtraName := String

/-- Versions (`pep440_rs::Version`); only equality and range membership are
used by the embedded code. -/
abbrev Version := Nat

/-- URLs (`url::Url` / `pep508_rs::VerbatimUrl`), carried verbatim. -/
abbrev Url := String

/-- `distribution_types::LocalEditable`: an editable local project, carrying
its verbatim source representation. -/
structure LocalEditable where
  verbatim : String
deriving DecidableEq, Repr

/-- `pypi_types::Metadata21`, restricted to the single field the embedded
code reads: the declared extras. -/
structure Metadata21 where
  provides_extras : List ExtraName
deriving DecidableEq, Repr

/-- `distribution_types::Dist`, restricted to the three constructions the
embedded code performs: `Dist::from_editable`, `Dist::from_url`, and a
registry pin. `Dist::from_editable` and `Dist::from_url` are external to the
sources and modelled as total constructors. -/
inductive Dist where
  | editable (name : PackageName) (ed : LocalEditable)
  | fromUrl (name : PackageName) (url : Url)
  | registry (name : PackageName) (version : Version)
deriving DecidableEq, Repr

/-- `Dist::name`. -/
def Dist.name : Dist → PackageName
  | .editable n _ => n
  | .fromUrl n _ => n
  | .registry n _ => n

/-- `Dist::verbatim`: the requirement line rendered for the distribution
(`name==version` for registry pins, `name @ url` for URL pins, the editable
source for editables). -/
def Dist.verbatim : Dist → String
  | .editable _ ed => ed.verbatim
  | .fromUrl n u => n ++ " @ " ++ u
  | .registry n v => n ++ "==" ++ toString v

/-- Modelled from the spec: the payload of the pin table (`crate::pins` is
not among the sources). The spec says the pin table maps package name +
version to "a concrete registry/URL distribution descriptor" for that
package, so the descriptor carries no independent name. -/
inductive PinnedSource where
  | registry (version : Version)
  | url (u : Url)
deriving DecidableEq, Repr

/-- Modelled from the spec: `crate::pins::FilePins` (not among the sources),
a table from `(name, version)` to the pinned distribution descriptor. -/
abbrev FilePins := List ((PackageName × Version) × PinnedSource)

/-- Modelled from the spec: `FilePins::get`, the point lookup returning the
concrete pinned distribution for `(name, version)`. -/
def FilePins.get (pins : FilePins) (name : PackageName) (version : Version) :
    Option Dist :=
  (assocLookup pins (name, version)).map (fun s =>
    match s with
    | .registry v => Dist.registry name v
    | .url u => Dist.fromUrl name u)

/-- Modelled from the spec: `crate::editables::Editables` (not among the
sources), a registry from package name to the editable project and its
declared-extras metadata. -/
abbrev Editables := List (PackageName × LocalEditable × Metadata21)

/-- Modelled from the spec: `Editables::get`, point lookup by package name. -/
def Editables.get (editables : Editables) (name : PackageName) :
    Option (LocalEditable × Metadata21) :=
  assocLookup editables name

/-- `crate::resolver::VersionsResponse`: either a found version map (from
which only `hashes(version)` is read) or any other response. -/
inductive VersionsResponse where
  | found (versionMap : List (Version × List String))
  | other
deriving DecidableEq, Repr

/-- `VersionMap::hashes(version)`: the content hashes recorded for a
version. -/
def versionMapHashes (versionMap : List (Version × List String))
    (version : Version) : List String :=
  (assocLookup versionMap version).getD []

/-- `PubGrubDistribution::package_id()`: the key of the per-distribution
metadata table, either registry-based or URL-based. -/
inductive PackageId where
  | registry (name : PackageName) (version : Version)
  | url (name : PackageName) (url : Url)
deriving DecidableEq, Repr

/-- `crate::pubgrub::PubGrubPackage`: the solver-internal package identity.
`root` stands for the non-`Package` variants (root, etc.), which the
embedded code ignores. -/
inductive PubGrubPackage where
  | root
  | pkg (name : PackageName) (extra : Option ExtraName) (url : Option Url)
deriving DecidableEq, Repr

/-- Model of the external `pubgrub::range::Range<Version>`: a closed
interval. The embedded code only calls `contains` on it and copies it. -/
structure VRange where
  lo : Nat
  hi : Nat
deriving DecidableEq, Repr

/-- `Range::contains`. -/
def VRange.contains (r : VRange) (v : Version) : Bool :=
  decide (r.lo ≤ v) && decide (v ≤ r.hi)

/-- The `kind` of a solver incompatibility: the only shape the embedded code
inspects is `Kind::FromDependencyOf`. -/
inductive IncompKind where
  | fromDependencyOf (selfPackage : PubGrubPackage) (selfVersion : VRange)
      (dependencyPackage : PubGrubPackage) (dependencyRange : VRange)
  | otherKind
deriving DecidableEq, Repr

/-- The solver state consumed by `from_state`: the per-package
incompatibility index (`state.incompatibilities`) and the incompatibility
store (`state.incompatibility_store`, projected to each entry's `kind`). -/
structure SolverState where
  incompatibilities : List (PubGrubPackage × List Nat)
  store : List IncompKind
deriving Repr

/-- `Diagnostic` (resolution.rs): the non-fatal problems recorded while
building the graph. -/
inductive Diagnostic where
  | missingExtra (dist : Dist) (extra : ExtraName)
deriving DecidableEq, Repr

/-- The petgraph graph: nodes in insertion order, edges as
`(source, target, weight)` triples in insertion order with in-place
update. -/
structure Graph where
  nodes : List Dist
  edges : List (Nat × Nat × VRange)
deriving DecidableEq, Repr

/-- Whether an edge triple connects `a → b`. -/
def edgeIsPair (a b : Nat) (e : Nat × Nat × VRange) : Bool :=
  e.1 == a && e.2.1 == b

/-- `petgraph`'s `update_edge` on the edge list: replace the weight of the
first (and, by invariant, only) existing `a → b` edge, else append. -/
def updateEdgeList (es : List (Nat × Nat × VRange)) (a b : Nat) (w : VRange) :
    List (Nat × Nat × VRange) :=
  match es with
  | [] => [(a, b, w)]
  | e :: rest =>
    if edgeIsPair a b e then (a, b, w) :: rest
    else e :: updateEdgeList rest a b w

/-- `Graph::update_edge`. -/
def Graph.update_edge (g : Graph) (a b : Nat) (w : VRange) : Graph :=
  { g with edges := updateEdgeList g.edges a b w }

/-- `Graph::add_node`: append the node, return its index. -/
def Graph.add_node (g : Graph) (d : Dist) : Graph × Nat :=
  ({ g with nodes := g.nodes ++ [d] }, g.nodes.length)

/-- The weight of the `a → b` edge, if present. -/
def edgeLookup (es : List (Nat × Nat × VRange)) (a b : Nat) : Option VRange :=
  (es.find? (edgeIsPair a b)).map (fun e => e.2.2)

/-- The read-only lookup tables passed to `from_state` besides the solver
state: pins, version listings, per-distribution metadata, URL redirects, and
the editable registry. -/
structure BuildInputs where
  pins : FilePins
  packages : List (PackageName × VersionsResponse)
  distributions : List (PackageId × Metadata21)
  redirects : List (Url × Url)
  editables : Editables
deriving Repr

/-- `redirects.get(url)` followed by the `map_or_else`: the redirected URL if
present, the original otherwise. -/
def resolveUrl (redirects : List (Url × Url)) (u : Url) : Url :=
  (assocLookup redirects u).getD u

/-- The accumulator of the node pass: the graph under construction, the
hash index, the name → node-index map (`inverse`), and the diagnostics. -/
structure BuildState where
  graph : Graph
  hashes : List (PackageName × List String)
  inverse : List (PackageName × Nat)
  diagnostics : List Diagnostic
deriving Repr

/-- The sorted hash snapshot taken while materializing a node: present only
when the version listing for the package was found. -/
def hashesFor (packages : List (PackageName × VersionsResponse))
    (name : PackageName) (version : Version) : Option (List String) :=
  match assocLookup packages name with
  | some (.found versionMap) => some (sortBy strLe (versionMapHashes versionMap version))
  | _ => none

/-- Insert the hash snapshot for `name`, if any (`hashes.insert`). -/
def insertHashes (hs : List (PackageName × List String))
    (packages : List (PackageName × VersionsResponse))
    (name : PackageName) (version : Version) : List (PackageName × List String) :=
  match hashesFor packages name version with
  | some sorted => (name, sorted) :: hs
  | none => hs

/-- One iteration of the node pass of `ResolutionGraph::from_state` (the
first `for (package, version) in selection` loop). `none` models an aborted
construction: a panicking `expect`/`unwrap_or_else(panic!)` lookup. -/
def addPackageStep (inputs : BuildInputs) (st : BuildState)
    (entry : PubGrubPackage × Version) : Option BuildState :=
  match entry with
  | (.pkg name none none, version) =>
    let pinnedOpt : Option Dist :=
      match inputs.editables.get name with
      | some (ed, _) => some (Dist.editable name ed)
      | none => inputs.pins.get name version
    match pinnedOpt with
    | none => none
    | some pinned =>
      let (g, index) := st.graph.add_node pinned
      some { st with
        graph := g
        hashes := insertHashes st.hashes inputs.packages name version
        inverse := (name, index) :: st.inverse }
  | (.pkg name none (some url), version) =>
    let pinned : Dist :=
      match inputs.editables.get name with
      | some (ed, _) => Dist.editable name ed
      | none => Dist.fromUrl name (resolveUrl inputs.redirects url)
    let (g, index) := st.graph.add_node pinned
    some { st with
      graph := g
      hashes := insertHashes st.hashes inputs.packages name version
      inverse := (name, index) :: st.inverse }
  | (.pkg name (some extra) none, version) =>
    match inputs.editables.get name with
    | some (ed, metadata) =>
      if extra ∈ metadata.provides_extras then some st
      else
        some { st with diagnostics := st.diagnostics ++
          [Diagnostic.missingExtra (Dist.editable name ed) extra] }
    | none =>
      match assocLookup inputs.distributions (PackageId.registry name version) with
      | none => none
      | some metadata =>
        if extra ∈ metadata.provides_extras then some st
        else
          match inputs.pins.get name version with
          | none => none
          | some pinned =>
            some { st with diagnostics := st.diagnostics ++
              [Diagnostic.missingExtra pinned extra] }
  | (.pkg name (some extra) (some url), _version) =>
    match inputs.editables.get name with
    | some (ed, metadata) =>
      if extra ∈ metadata.provides_extras then some st
      else
        some { st with diagnostics := st.diagnostics ++
          [Diagnostic.missingExtra (Dist.editable name ed) extra] }
    | none =>
      match assocLookup inputs.distributions (PackageId.url name url) with
      | none => none
      | some metadata =>
        if extra ∈ metadata.provides_extras then some st
        else
          some { st with diagnostics := st.diagnostics ++
            [Diagnostic.missingExtra
              (Dist.fromUrl name (resolveUrl inputs.redirects url)) extra] }
  | (.root, _) => some st

/-- The node pass of `from_state`, folded over the selection. -/
def nodePass (selection : List (PubGrubPackage × Version))
    (inputs : BuildInputs) : Option BuildState :=
  selection.foldlM (addPackageStep inputs) ⟨⟨[], []⟩, [], [], []⟩

/-- One incompatibility of the edge pass: the body of the inner loop over
`state.incompatibilities[package]`, applied to the incompatibility's kind.
`version` is the selected version of the package under iteration. `none`
models the panicking `inverse[..]` index lookups. -/
def addEdgeStep (inverse : List (PackageName × Nat)) (version : Version)
    (g : Graph) (kind : IncompKind) : Option Graph :=
  match kind with
  | .fromDependencyOf selfPackage selfVersion dependencyPackage dependencyRange =>
    match selfPackage, dependencyPackage with
    | .pkg selfName _ _, .pkg depName _ _ =>
      if selfName = depName then some g
      else if selfVersion.contains version then
        match assocLookup inverse selfName, assocLookup inverse depName with
        | some selfIndex, some depIndex =>
          some (g.update_edge selfIndex depIndex dependencyRange)
        | _, _ => none
      else some g
    | _, _ => some g
  | .otherKind => some g

/-- The edge pass for one selection entry: look up the package's
incompatibility ids (a panicking map index, hence `Option`) and fold the
store entries through `addEdgeStep`. -/
def edgesForEntry (state : SolverState) (inverse : List (PackageName × Nat))
    (g : Graph) (entry : PubGrubPackage × Version) : Option Graph :=
  match assocLookup state.incompatibilities entry.1 with
  | none => none
  | some ids =>
    ids.foldlM (fun g id =>
      match state.store.get? id with
      | none => none
      | some kind => addEdgeStep inverse entry.2 g kind) g

/-- The resolution graph: the petgraph graph, the hash index, the editable
registry and the collected diagnostics. -/
structure ResolutionGraph where
  petgraph : Graph
  hashes : List (PackageName × List String)
  editables : Editables
  diagnostics : List Diagnostic
deriving DecidableEq, Repr

/-- `ResolutionGraph::from_state`: build the graph from the solver selection
and state, the lookup tables and the editable registry. `none` models an
aborted construction (panic or propagated error). -/
def ResolutionGraph.from_state (selection : List (PubGrubPackage × Version))
    (inputs : BuildInputs) (state : SolverState) : Option ResolutionGraph := do
  let st ← nodePass selection inputs
  let g ← selection.foldlM (edgesForEntry state st.inverse) st.graph
  pure ⟨g, st.hashes, inputs.editables, st.diagnostics⟩

/-! ## Characterizations of the construction (derived, used by the proofs)

These definitions project what one selection entry contributes to the node
pass, and which `(source, target, range)` triples survive the edge-pass
filters; lemmas below tie them to `ResolutionGraph.from_state`. -/

/-- The node contributed by one selection entry (`none` for diagnostic-only
and ignored variants, and in the aborting plain-variant case, which a
successful construction excludes). -/
def entryNodeD (inputs : BuildInputs) : PubGrubPackage × Version → Option Dist
  | (.pkg name none none, version) =>
    match inputs.editables.get name with
    | some (ed, _) => some (Dist.editable name ed)
    | none => inputs.pins.get name version
  | (.pkg name none (some url), _) =>
    some (match inputs.editables.get name with
      | some (ed, _) => Dist.editable name ed
      | none => Dist.fromUrl name (resolveUrl inputs.redirects url))
  | _ => none

/-- The diagnostic contributed by one selection entry (`none` when the extra
exists, for non-extra variants, and in the aborting lookups, which a
successful construction excludes). -/
def entryDiag (inputs : BuildInputs) : PubGrubPackage × Version → Option Diagnostic
  | (.pkg name (some extra) none, version) =>
    match inputs.editables.get name with
    | some (ed, metadata) =>
      if extra ∈ metadata.provides_extras then none
      else some (Diagnostic.missingExtra (Dist.editable name ed) extra)
    | none =>
      match assocLookup inputs.distributions (PackageId.registry name version) with
      | none => none
      | some metadata =>
        if extra ∈ metadata.provides_extras then none
        else (inputs.pins.get name version).map
          (fun pinned => Diagnostic.missingExtra pinned extra)
  | (.pkg name (some extra) (some url), _version) =>
    match inputs.editables.get name with
    | some (ed, metadata) =>
      if extra ∈ metadata.provides_extras then none
      else some (Diagnostic.missingExtra (Dist.editable name ed) extra)
    | none =>
      match assocLookup inputs.distributions (PackageId.url name url) with
      | none => none
      | some metadata =>
        if extra ∈ metadata.provides_extras then none
        else some (Diagnostic.missingExtra
          (Dist.fromUrl name (resolveUrl inputs.redirects url)) extra)
  | _ => none

/-- The base distribution a missing-extra diagnostic is recorded against:
editable if present, else the registry pin (no URL) or the redirected URL
distribution. -/
def baseDistOf (inputs : BuildInputs) (name : PackageName) (u : Option Url)
    (version : Version) : Option Dist :=
  match inputs.editables.get name with
  | some (ed, _) => some (Dist.editable name ed)
  | none =>
    match u with
    | none => inputs.pins.get name version
    | some url => some (Dist.fromUrl name (resolveUrl inputs.redirects url))

/-- Whether the resolved metadata consulted for variant `name[extra]`
(editable metadata if editable, else the distributions table under the
registry or URL package id) declares the extra as missing. -/
def extraIsMissing (inputs : BuildInputs) (name : PackageName)
    (extra : ExtraName) (u : Option Url) (version : Version) : Bool :=
  match inputs.editables.get name with
  | some (_, metadata) => !(decide (extra ∈ metadata.provides_extras))
  | none =>
    match assocLookup inputs.distributions
        (match u with
         | none => PackageId.registry name version
         | some url => PackageId.url name url) with
    | some metadata => !(decide (extra ∈ metadata.provides_extras))
    | none => false

/-- The `(source index, target index, range)` triple of a justification that
survives the edge-pass filters: both endpoints package-shaped, distinct
names, `self_version` containing the iterated version, and both names
present in the name → index map. -/
def survivorOf (inverse : List (PackageName × Nat)) (version : Version) :
    IncompKind → Option (Nat × Nat × VRange)
  | .fromDependencyOf selfPackage selfVersion dependencyPackage dependencyRange =>
    match selfPackage, dependencyPackage with
    | .pkg selfName _ _, .pkg depName _ _ =>
      if selfName = depName then none
      else if selfVersion.contains version then
        match assocLookup inverse selfName, assocLookup inverse depName with
        | some selfIndex, some depIndex => some (selfIndex, depIndex, dependencyRange)
        | _, _ => none
      else none
    | _, _ => none
  | .otherKind => none

/-- The surviving justifications of one selection entry, in processing
order. -/
def entrySurvivors (state : SolverState) (inverse : List (PackageName × Nat))
    (entry : PubGrubPackage × Version) : List (Nat × Nat × VRange) :=
  ((assocLookup state.incompatibilities entry.1).getD []).filterMap
    (fun id => (state.store.get? id).bind (survivorOf inverse entry.2))

/-- All surviving justifications of the edge pass, in processing order. -/
def survivingEdges (state : SolverState) (inverse : List (PackageName × Nat))
    (selection : List (PubGrubPackage × Version)) : List (Nat × Nat × VRange) :=
  (selection.map (entrySurvivors state inverse)).flatten

/-- The name → node-index map produced by the node pass. -/
def buildInverse (selection : List (PubGrubPackage × Version))
    (inputs : BuildInputs) : Option (List (PackageName × Nat)) :=
  (nodePass selection inputs).map (fun st => st.inverse)

/-! ## The renderer (`Display for DisplayResolutionGraph`) -/

/-- `AnnotationStyle`. -/
inductive AnnotationStyle where
  | line
  | split
deriving DecidableEq, Repr

/-- The fields of `DisplayResolutionGraph` besides the graph itself. -/
structure DisplayOptions where
  no_emit_packages : List PackageName
  show_hashes : Bool
  include_annotations : Bool
  annotation_style : AnnotationStyle
deriving Repr

/-- The `Node` classification of the renderer: editable or plain
distribution. -/
inductive RenderNode where
  | editable (name : PackageName) (ed : LocalEditable)
  | distribution (name : PackageName) (dist : Dist)
deriving DecidableEq, Repr

/-- `Node::name`. -/
def RenderNode.name : RenderNode → PackageName
  | .editable n _ => n
  | .distribution n _ => n

/-- `NodeKey`: editables sort by the editable's verbatim string,
distributions by package name. -/
inductive NodeKey where
  | editable (s : String)
  | distribution (n : PackageName)
deriving DecidableEq, Repr

/-- `Node::key`. -/
def RenderNode.key : RenderNode → NodeKey
  | .editable _ ed => NodeKey.editable ed.verbatim
  | .distribution n _ => NodeKey.distribution n

/-- The derived `Ord` on `NodeKey`: every `Editable` before every
`Distribution`, lexicographic within each variant. -/
def NodeKey.le : NodeKey → NodeKey → Bool
  | .editable a, .editable b => strLe a b
  | .editable _, .distribution _ => true
  | .distribution _, .editable _ => false
  | .distribution a, .distribution b => strLe a b

/-- The sort key of `sort_unstable_by_key`: `(node.key(), index)`, ordered
lexicographically (node-creation order breaks ties). -/
def keyIdxLe (a b : NodeKey × Nat) : Bool :=
  if a.1 = b.1 then a.2 ≤ b.2 else NodeKey.le a.1 b.1

/-- Collect the rendered nodes: every graph node whose name is not excluded,
classified as editable (when the editable registry has its name) or plain
distribution, paired with its node index. -/
def collectNodes (nodes : List Dist)
    (eget : PackageName → Option (LocalEditable × Metadata21))
    (noEmit : List PackageName) : List (Nat × RenderNode) :=
  nodes.enum.filterMap (fun p =>
    let dist := p.2
    let name := dist.name
    if noEmit.contains name then none
    else some (p.1,
      match eget name with
      | some (ed, _) => RenderNode.editable name ed
      | none => RenderNode.distribution name dist))

/-- `nodes.sort_unstable_by_key(|(index, node)| (node.key(), *index))`. -/
def sortNodes (l : List (Nat × RenderNode)) : List (Nat × RenderNode) :=
  sortBy (fun a b => keyIdxLe (a.2.key, a.1) (b.2.key, b.1)) l

/-- The names of the dependents of node `index` (sources of incoming edges),
sorted by package name. The code collects the source distributions and then
only reads their names, so names are collected directly. -/
def dependentNames (nodes : List Dist) (edges : List (Nat × Nat × VRange))
    (index : Nat) : List PackageName :=
  sortBy strLe
    (edges.filterMap (fun e =>
      if e.2.1 == index then (nodes.get? e.1).map Dist.name else none))

/-- Append the `--hash=` continuation lines to the requirement line. -/
def lineWithHashes (line : String) (hs : List String) : String :=
  hs.foldl (fun l h => l ++ " \\\n    --hash=" ++ h) line

/-- Rust `[String]::join(sep)`. -/
def joinWith (sep : String) : List String → String
  | [] => ""
  | p :: ps => ps.foldl (fun acc q => acc ++ sep ++ q) p

/-- The annotation comment and separator, as a function of the style, the
presence of emitted hashes, and the sorted dependent names (`green()` is the
identity: ANSI colouring omitted). -/
def annotationFor (style : AnnotationStyle) (hasHashes : Bool)
    (deps : List PackageName) : Option (String × String) :=
  match style with
  | .line =>
    if deps.isEmpty then none
    else some (if hasHashes then "\n    " else "  ",
      "# via " ++ joinWith ", " deps)
  | .split =>
    match deps with
    | [] => none
    | [d] => some ("\n", "    # via " ++ d)
    | ds => some ("\n",
      "    # via\n" ++ joinWith "\n" (ds.map (fun d => "    #   " ++ d)))

/-- The chunks written for one sorted node (each chunk is emitted followed by
a newline): the requirement line with optional hash continuations, assembled
with the annotation comment and per-line trailing-whitespace trim when an
annotation is present, or written as-is otherwise. -/
def nodeLines (nodes : List Dist) (edges : List (Nat × Nat × VRange))
    (hget : PackageName → Option (List String)) (opts : DisplayOptions)
    (p : Nat × RenderNode) : List String :=
  let base : String :=
    match p.2 with
    | .distribution _ dist => dist.verbatim
    | .editable _ ed => "-e " ++ ed.verbatim
  let withH : String × Bool :=
    if opts.show_hashes then
      match hget p.2.name with
      | some hs => if hs.isEmpty then (base, false) else (lineWithHashes base hs, true)
      | none => (base, false)
    else (base, false)
  let annOpt : Option (String × String) :=
    if opts.include_annotations then
      annotationFor opts.annotation_style withH.2 (dependentNames nodes edges p.1)
    else none
  match annOpt with
  | some (separator, comment) =>
    (linesOf (padToWidth 24 withH.1 ++ separator ++ comment)).map trimEndS
  | none => [withH.1]

/-- The renderer over explicit node/edge lists and lookup functions for the
hash index and the editable registry (the code reads both tables only
through point lookups). -/
def displayCore (nodes : List Dist) (edges : List (Nat × Nat × VRange))
    (hget : PackageName → Option (List String))
    (eget : PackageName → Option (LocalEditable × Metadata21))
    (opts : DisplayOptions) : String :=
  String.join
    ((sortNodes (collectNodes nodes eget opts.no_emit_packages)).map
      (fun p => String.join ((nodeLines nodes edges hget opts p).map (fun l => l ++ "\n"))))

/-- `Display for DisplayResolutionGraph`: render the resolution graph with
the given options. -/
def displayGraph (g : ResolutionGraph) (opts : DisplayOptions) : String :=
  displayCore g.petgraph.nodes g.petgraph.edges
    (fun n => assocLookup g.hashes n)
    (fun n => g.editables.get n) opts

/-! ## General lemmas: `Option` folds, association lookups -/

theorem foldlM_opt_cons {α β : Type} (f : β → α → Option β) (x : α) (xs : List α) (b : β) :
    (x :: xs).foldlM f b = (f b x).bind (fun b' => xs.foldlM f b') := rfl

theorem foldlM_opt_append {α β : Type} (f : β → α → Option β) (xs ys : List α) (b : β) :
    (xs ++ ys).foldlM f b = (xs.foldlM f b).bind (fun b' => ys.foldlM f b') := by
  induction xs generalizing b with
  | nil => rfl
  | cons x xs ih =>
    simp only [List.cons_append, List.foldlM_cons]
    cases f b x <;> simp [ih]

theorem foldlM_opt_success_cons {α β : Type} {f : β → α → Option β} {x : α} {xs : List α}
    {b0 b1 : β} (h : (x :: xs).foldlM f b0 = some b1) :
    ∃ b, f b0 x = some b ∧ xs.foldlM f b = some b1 := by
  rw [foldlM_opt_cons] at h
  cases hfb : f b0 x with
  | none => rw [hfb] at h; cases h
  | some b => rw [hfb] at h; exact ⟨b, rfl, h⟩

theorem foldlM_opt_success_of_mem {α β : Type} {f : β → α → Option β} :
    ∀ {xs : List α} {b0 b1 : β}, xs.foldlM f b0 = some b1 → ∀ {x : α}, x ∈ xs →
      ∃ b b', f b x = some b' := by
  intro xs
  induction xs with
  | nil => intro b0 b1 _ x hx; cases hx
  | cons y ys ih =>
    intro b0 b1 h x hx
    obtain ⟨b, hfb, hrest⟩ := foldlM_opt_success_cons h
    rcases List.mem_cons.mp hx with rfl | hx'
    · exact ⟨b0, b, hfb⟩
    · exact ih hrest hx'

theorem assocLookup_some_mem {κ β : Type} [DecidableEq κ] {l : List (κ × β)} {k : κ} {v : β}
    (h : assocLookup l k = some v) : (k, v) ∈ l := by
  unfold assocLookup at h
  cases hf : l.find? (fun p => p.1 = k) with
  | none => rw [hf] at h; cases h
  | some p =>
    rw [hf] at h
    have hp := List.find?_some hf
    have hm := List.mem_of_find?_eq_some hf
    obtain ⟨p1, p2⟩ := p
    simp only [decide_eq_true_eq] at hp
    have h2 : p2 = v := by simpa using h
    subst hp
    subst h2
    exact hm

/-! ## General lemmas: the character-level string order -/

theorem char_eq_of_toNat_eq {c d : Char} (h : c.toNat = d.toNat) : c = d :=
  Char.eq_of_val_eq (UInt32.ext h)

theorem charListLe_total : ∀ (a b : List Char), (charListLe a b || charListLe b a) = true := by
  intro a
  induction a with
  | nil => intro b; simp [charListLe]
  | cons x xs ih =>
    intro b
    cases b with
    | nil => simp [charListLe]
    | cons y ys =>
      by_cases hxy : x = y
      · subst hxy
        simpa [charListLe] using ih ys
      · have hn : x.toNat ≠ y.toNat := fun hc => hxy (char_eq_of_toNat_eq hc)
        simp only [charListLe, if_neg hxy, if_neg (Ne.symm hxy), Bool.or_eq_true,
          decide_eq_true_eq]
        omega

theorem charListLe_trans : ∀ (a b c : List Char), charListLe a b = true →
    charListLe b c = true → charListLe a c = true := by
  intro a
  induction a with
  | nil => intro b c _ _; simp [charListLe]
  | cons x xs ih =>
    intro b c hab hbc
    cases b with
    | nil => simp [charListLe] at hab
    | cons y ys =>
      cases c with
      | nil => simp [charListLe] at hbc
      | cons z zs =>
        by_cases hxy : x = y <;> by_cases hyz : y = z
        · subst hxy; subst hyz
          simp only [charListLe, if_pos rfl] at hab hbc ⊢
          exact ih ys zs hab hbc
        · subst hxy
          simp only [charListLe, if_pos rfl, if_neg hyz] at hab hbc ⊢
          exact hbc
        · subst hyz
          simp only [charListLe, if_neg hxy] at hab ⊢
          exact hab
        · simp only [charListLe, if_neg hxy, if_neg hyz, decide_eq_true_eq] at hab hbc
          have hxz : x.toNat < z.toNat := Nat.lt_trans hab hbc
          have hne : x ≠ z := fun hc => by subst hc; omega
          simp only [charListLe, if_neg hne, decide_eq_true_eq]
          exact hxz

theorem charListLe_antisymm : ∀ (a b : List Char), charListLe a b = true →
    charListLe b a = true → a = b := by
  intro a
  induction a with
  | nil =>
    intro b _ hba
    cases b with
    | nil => rfl
    | cons y ys => simp [charListLe] at hba
  | cons x xs ih =>
    intro b hab hba
    cases b with
    | nil => simp [charListLe] at hab
    | cons y ys =>
      by_cases hxy : x = y
      · subst hxy
        simp only [charListLe, if_pos rfl] at hab hba
        rw [ih ys hab hba]
      · simp only [charListLe, if_neg hxy, if_neg (Ne.symm hxy), decide_eq_true_eq]
          at hab hba
        omega

theorem string_eq_of_toList_eq {a b : String} (h : a.toList = b.toList) : a = b := by
  have ha : String.mk a.toList = a := rfl
  have hb : String.mk b.toList = b := rfl
  rw [← ha, ← hb, h]

theorem strLe_total (a b : String) : (strLe a b || strLe b a) = true :=
  charListLe_total a.toList b.toList

theorem strLe_trans {a b c : String} (hab : strLe a b = true) (hbc : strLe b c = true) :
    strLe a c = true :=
  charListLe_trans a.toList b.toList c.toList hab hbc

theorem strLe_antisymm {a b : String} (hab : strLe a b = true) (hba : strLe b a = true) :
    a = b :=
  string_eq_of_toList_eq (charListLe_antisymm a.toList b.toList hab hba)

/-! ## General lemmas: the insertion sort -/

theorem insertBy_perm {α : Type} (le : α → α → Bool) (a : α) (l : List α) :
    (insertBy le a l).Perm (a :: l) := by
  induction l with
  | nil => simp [insertBy]
  | cons b bs ih =>
    unfold insertBy
    by_cases h : le a b = true
    · simp [h]
    · simp only [h]
      simp only [Bool.false_eq_true, if_false]
      exact (ih.cons b).trans (List.Perm.swap a b bs)

theorem sortBy_perm {α : Type} (le : α → α → Bool) (l : List α) :
    (sortBy le l).Perm l := by
  induction l with
  | nil => simp [sortBy]
  | cons a as ih =>
    unfold sortBy
    exact (insertBy_perm le a (sortBy le as)).trans (ih.cons a)

theorem mem_insertBy {α : Type} {le : α → α → Bool} {a x : α} {l : List α}
    (h : x ∈ insertBy le a l) : x = a ∨ x ∈ l := by
  have := (insertBy_perm le a l).mem_iff.mp h
  simpa using this

theorem insertBy_sorted {α : Type} {le : α → α → Bool}
    (htot : ∀ a b, (le a b || le b a) = true)
    (htrans : ∀ a b c, le a b = true → le b c = true → le a c = true)
    (a : α) {l : List α} (hl : l.Pairwise (fun x y => le x y = true)) :
    (insertBy le a l).Pairwise (fun x y => le x y = true) := by
  induction l with
  | nil => simp [insertBy]
  | cons b bs ih =>
    rw [List.pairwise_cons] at hl
    obtain ⟨hb, hbs⟩ := hl
    unfold insertBy
    by_cases h : le a b = true
    · simp only [h, if_true]
      rw [List.pairwise_cons]
      constructor
      · intro x hx
        rcases List.mem_cons.mp hx with rfl | hx'
        · exact h
        · exact htrans a b x h (hb x hx')
      · rw [List.pairwise_cons]; exact ⟨hb, hbs⟩
    · simp only [h]
      simp only [Bool.false_eq_true, if_false]
      rw [List.pairwise_cons]
      constructor
      · intro x hx
        rcases mem_insertBy hx with hxa | hx'
        · subst hxa
          have htotab := htot x b
          rw [Bool.or_eq_true] at htotab
          exact htotab.resolve_left h
        · exact hb x hx'
      · exact ih hbs

theorem sortBy_sorted {α : Type} {le : α → α → Bool}
    (htot : ∀ a b, (le a b || le b a) = true)
    (htrans : ∀ a b c, le a b = true → le b c = true → le a c = true)
    (l : List α) : (sortBy le l).Pairwise (fun x y => le x y = true) := by
  induction l with
  | nil => simp [sortBy]
  | cons a as ih =>
    unfold sortBy
    exact insertBy_sorted htot htrans a ih

/-! ## Characterization of the node pass -/

theorem FilePins.get_name {pins : FilePins} {n : PackageName} {v : Version} {d : Dist}
    (h : pins.get n v = some d) : d.name = n := by
  unfold FilePins.get at h
  cases hl : assocLookup pins (n, v) with
  | none => rw [hl] at h; cases h
  | some s =>
    rw [hl] at h
    cases s with
    | registry v2 =>
      have h2 : Dist.registry n v2 = d := by simpa using h
      subst h2
      rfl
    | url u2 =>
      have h2 : Dist.fromUrl n u2 = d := by simpa using h
      subst h2
      rfl

theorem addPackageStep_some {inputs : BuildInputs} {st st' : BuildState}
    {e : PubGrubPackage × Version} (h : addPackageStep inputs st e = some st') :
    st'.graph.nodes = st.graph.nodes ++ (entryNodeD inputs e).toList ∧
    st'.diagnostics = st.diagnostics ++ (entryDiag inputs e).toList ∧
    st'.inverse = (match entryNodeD inputs e with
      | some d => (d.name, st.graph.nodes.length) :: st.inverse
      | none => st.inverse) ∧
    st'.graph.edges = st.graph.edges := by
  obtain ⟨p, v⟩ := e
  cases p with
  | root =>
    simp only [addPackageStep] at h
    cases h
    simp [entryNodeD, entryDiag]
  | pkg name extra url =>
    cases extra with
    | none =>
      cases url with
      | none =>
        cases hed : inputs.editables.get name with
        | some edm =>
          obtain ⟨ed, md⟩ := edm
          simp only [addPackageStep, hed, Graph.add_node] at h
          cases h
          simp [entryNodeD, hed, entryDiag, Dist.name]
        | none =>
          cases hpin : inputs.pins.get name v with
          | none =>
            simp only [addPackageStep, hed, hpin] at h
            cases h
          | some pinned =>
            simp only [addPackageStep, hed, hpin, Graph.add_node] at h
            cases h
            simp [entryNodeD, hed, hpin, entryDiag, FilePins.get_name hpin]
      | some u =>
        cases hed : inputs.editables.get name with
        | some edm =>
          obtain ⟨ed, md⟩ := edm
          simp only [addPackageStep, hed, Graph.add_node] at h
          cases h
          simp [entryNodeD, hed, entryDiag, Dist.name]
        | none =>
          simp only [addPackageStep, hed, Graph.add_node] at h
          cases h
          simp [entryNodeD, hed, entryDiag, Dist.name]
    | some x =>
      cases url with
      | none =>
        cases hed : inputs.editables.get name with
        | some edm =>
          obtain ⟨ed, md⟩ := edm
          by_cases hin : x ∈ md.provides_extras
          · simp only [addPackageStep, hed, if_pos hin] at h
            cases h
            simp [entryNodeD, hed, entryDiag, if_pos hin]
          · simp only [addPackageStep, hed, if_neg hin] at h
            cases h
            simp [entryNodeD, hed, entryDiag, if_neg hin]
        | none =>
          cases hdist : assocLookup inputs.distributions (PackageId.registry name v) with
          | none =>
            simp only [addPackageStep, hed, hdist] at h
            cases h
          | some md =>
            by_cases hin : x ∈ md.provides_extras
            · simp only [addPackageStep, hed, hdist, if_pos hin] at h
              cases h
              simp [entryNodeD, hed, hdist, entryDiag, if_pos hin]
            · cases hpin : inputs.pins.get name v with
              | none =>
                simp only [addPackageStep, hed, hdist, if_neg hin, hpin] at h
                cases h
              | some pinned =>
                simp only [addPackageStep, hed, hdist, if_neg hin, hpin] at h
                cases h
                simp [entryNodeD, hed, hdist, hpin, entryDiag, if_neg hin]
      | some u =>
        cases hed : inputs.editables.get name with
        | some edm =>
          obtain ⟨ed, md⟩ := edm
          by_cases hin : x ∈ md.provides_extras
          · simp only [addPackageStep, hed, if_pos hin] at h
            cases h
            simp [entryNodeD, hed, entryDiag, if_pos hin]
          · simp only [addPackageStep, hed, if_neg hin] at h
            cases h
            simp [entryNodeD, hed, entryDiag, if_neg hin]
        | none =>
          cases hdist : assocLookup inputs.distributions (PackageId.url name u) with
          | none =>
            simp only [addPackageStep, hed, hdist] at h
            cases h
          | some md =>
            by_cases hin : x ∈ md.provides_extras
            · simp only [addPackageStep, hed, hdist, if_pos hin] at h
              cases h
              simp [entryNodeD, hed, hdist, entryDiag, if_pos hin]
            · simp only [addPackageStep, hed, hdist, if_neg hin] at h
              cases h
              simp [entryNodeD, hed, hdist, entryDiag, if_neg hin]

/-- The node-pass invariant: every name → index entry of `inverse` points at
a node of that name. -/
def InvGood (st : BuildState) : Prop :=
  ∀ p ∈ st.inverse, ∃ d, st.graph.nodes[p.2]? = some d ∧ d.name = p.1

theorem addPackageStep_invGood {inputs : BuildInputs} {st st' : BuildState}
    {e : PubGrubPackage × Version} (hg : InvGood st)
    (h : addPackageStep inputs st e = some st') : InvGood st' := by
  obtain ⟨hnodes, _, hinv, _⟩ := addPackageStep_some h
  intro p hp
  rw [hinv] at hp
  cases hd : entryNodeD inputs e with
  | none =>
    rw [hd] at hp
    obtain ⟨d, hget, hname⟩ := hg p hp
    refine ⟨d, ?_, hname⟩
    rw [hnodes, hd]
    simpa using hget
  | some nd =>
    rw [hd] at hp
    rcases List.mem_cons.mp hp with rfl | hp'
    · refine ⟨nd, ?_, rfl⟩
      rw [hnodes, hd]
      simp [List.getElem?_concat_length]
    · obtain ⟨d, hget, hname⟩ := hg p hp'
      refine ⟨d, ?_, hname⟩
      rw [hnodes, hd]
      have hlt : p.2 < st.graph.nodes.length := by
        by_contra hge
        rw [List.getElem?_eq_none (Nat.le_of_not_lt hge)] at hget
        cases hget
      rw [List.getElem?_append, if_pos hlt]
      exact hget

theorem nodePass_fold {inputs : BuildInputs} :
    ∀ {sel : List (PubGrubPackage × Version)} {st st' : BuildState},
      sel.foldlM (addPackageStep inputs) st = some st' →
      st'.graph.nodes = st.graph.nodes ++ sel.filterMap (entryNodeD inputs) ∧
      st'.diagnostics = st.diagnostics ++ sel.filterMap (entryDiag inputs) ∧
      (InvGood st → InvGood st') ∧
      st'.graph.edges = st.graph.edges := by
  intro sel
  induction sel with
  | nil =>
    intro st st' h
    cases h
    simp
  | cons e rest ih =>
    intro st st' h
    obtain ⟨st1, hstep, hrest⟩ := foldlM_opt_success_cons h
    obtain ⟨hn, hd, _, hedg⟩ := addPackageStep_some hstep
    obtain ⟨hn', hd', hinv', hedg'⟩ := ih hrest
    refine ⟨?_, ?_, ?_, ?_⟩
    · rw [hn', hn, List.filterMap_cons]
      cases entryNodeD inputs e <;> simp
    · rw [hd', hd, List.filterMap_cons]
      cases entryDiag inputs e <;> simp
    · intro hg
      exact hinv' (addPackageStep_invGood hg hstep)
    · rw [hedg', hedg]

theorem nodePass_char {sel : List (PubGrubPackage × Version)} {inputs : BuildInputs}
    {st : BuildState} (h : nodePass sel inputs = some st) :
    st.graph.nodes = sel.filterMap (entryNodeD inputs) ∧
    st.diagnostics = sel.filterMap (entryDiag inputs) ∧
    InvGood st ∧
    st.graph.edges = [] := by
  obtain ⟨hn, hd, hinv, hedg⟩ := nodePass_fold h
  refine ⟨by simpa using hn, by simpa using hd, hinv ?_, by simpa using hedg⟩
  intro p hp
  cases hp

theorem from_state_parts {sel : List (PubGrubPackage × Version)} {inputs : BuildInputs}
    {state : SolverState} {g : ResolutionGraph}
    (h : ResolutionGraph.from_state sel inputs state = some g) :
    ∃ st, nodePass sel inputs = some st ∧
      sel.foldlM (edgesForEntry state st.inverse) st.graph = some g.petgraph ∧
      g.hashes = st.hashes ∧ g.editables = inputs.editables ∧
      g.diagnostics = st.diagnostics := by
  unfold ResolutionGraph.from_state at h
  cases hnp : nodePass sel inputs with
  | none =>
    rw [hnp] at h
    cases h
  | some st =>
    rw [hnp] at h
    simp only [Option.bind_eq_bind, Option.some_bind] at h
    cases hep : sel.foldlM (edgesForEntry state st.inverse) st.graph with
    | none =>
      rw [hep] at h
      cases h
    | some gg =>
      rw [hep] at h
      simp only [Option.some_bind] at h
      cases h
      exact ⟨st, rfl, hep, rfl, rfl, rfl⟩

/-! ## Characterization of the edge pass -/

/-- Apply one surviving justification to the edge list. -/
def applyEdge (es : List (Nat × Nat × VRange)) (t : Nat × Nat × VRange) :
    List (Nat × Nat × VRange) :=
  updateEdgeList es t.1 t.2.1 t.2.2

theorem addEdgeStep_some {inverse : List (PackageName × Nat)} {v : Version}
    {g g' : Graph} {kind : IncompKind} (h : addEdgeStep inverse v g kind = some g') :
    g'.nodes = g.nodes ∧
    g'.edges = (match survivorOf inverse v kind with
      | some t => applyEdge g.edges t
      | none => g.edges) := by
  cases kind with
  | otherKind =>
    simp only [addEdgeStep] at h
    cases h
    simp [survivorOf]
  | fromDependencyOf sp sv dp dr =>
    cases sp with
    | root =>
      simp only [addEdgeStep] at h
      cases h
      simp [survivorOf]
    | pkg spn se su =>
      cases dp with
      | root =>
        simp only [addEdgeStep] at h
        cases h
        simp [survivorOf]
      | pkg dpn de du =>
        by_cases hnm : spn = dpn
        · simp only [addEdgeStep, if_pos hnm] at h
          cases h
          simp [survivorOf, if_pos hnm]
        · by_cases hc : sv.contains v = true
          · cases hsi : assocLookup inverse spn with
            | none =>
              simp only [addEdgeStep, if_neg hnm, hc, if_true, hsi] at h
              cases h
            | some si =>
              cases hdi : assocLookup inverse dpn with
              | none =>
                simp only [addEdgeStep, if_neg hnm, hc, if_true, hsi, hdi] at h
                cases h
              | some di =>
                simp only [addEdgeStep, if_neg hnm, hc, if_true, hsi, hdi] at h
                cases h
                simp [survivorOf, if_neg hnm, hc, hsi, hdi, applyEdge,
                  Graph.update_edge]
          · have hc' : sv.contains v = false := by
              cases hcv : sv.contains v
              · rfl
              · exact absurd hcv hc
            simp only [addEdgeStep, if_neg hnm, hc', Bool.false_eq_true, if_false] at h
            cases h
            simp [survivorOf, if_neg hnm, hc']

theorem edgeFold_some {state : SolverState} {inverse : List (PackageName × Nat)}
    {v : Version} :
    ∀ {ids : List Nat} {g g' : Graph},
      ids.foldlM (fun g id =>
        match state.store.get? id with
        | none => none
        | some kind => addEdgeStep inverse v g kind) g = some g' →
      g'.nodes = g.nodes ∧
      g'.edges = (ids.filterMap
        (fun id => (state.store.get? id).bind (survivorOf inverse v))).foldl
          applyEdge g.edges := by
  intro ids
  induction ids with
  | nil =>
    intro g g' h
    cases h
    simp
  | cons id rest ih =>
    intro g g' h
    obtain ⟨g1, hstep, hrest⟩ := foldlM_opt_success_cons h
    cases hk : state.store.get? id with
    | none =>
      rw [hk] at hstep
      cases hstep
    | some kind =>
      rw [hk] at hstep
      obtain ⟨hn1, he1⟩ := addEdgeStep_some hstep
      obtain ⟨hn2, he2⟩ := ih hrest
      rw [List.filterMap_cons]
      refine ⟨by rw [hn2, hn1], ?_⟩
      rw [hk]
      simp only [Option.some_bind]
      cases hs : survivorOf inverse v kind with
      | none =>
        rw [hs] at he1
        rw [he2, he1]
      | some t =>
        rw [hs] at he1
        rw [he2, he1]
        simp [List.foldl_cons]

theorem edgesForEntry_some {state : SolverState} {inverse : List (PackageName × Nat)}
    {g g' : Graph} {e : PubGrubPackage × Version}
    (h : edgesForEntry state inverse g e = some g') :
    g'.nodes = g.nodes ∧
    g'.edges = (entrySurvivors state inverse e).foldl applyEdge g.edges := by
  unfold edgesForEntry at h
  cases hids : assocLookup state.incompatibilities e.1 with
  | none =>
    rw [hids] at h
    cases h
  | some ids =>
    rw [hids] at h
    have := edgeFold_some h
    unfold entrySurvivors
    rw [hids]
    simpa using this

theorem edgePass_fold {state : SolverState} {inverse : List (PackageName × Nat)} :
    ∀ {sel : List (PubGrubPackage × Version)} {g g' : Graph},
      sel.foldlM (edgesForEntry state inverse) g = some g' →
      g'.nodes = g.nodes ∧
      g'.edges = (survivingEdges state inverse sel).foldl applyEdge g.edges := by
  intro sel
  induction sel with
  | nil =>
    intro g g' h
    cases h
    simp [survivingEdges]
  | cons e rest ih =>
    intro g g' h
    obtain ⟨g1, hstep, hrest⟩ := foldlM_opt_success_cons h
    obtain ⟨hn1, he1⟩ := edgesForEntry_some hstep
    obtain ⟨hn2, he2⟩ := ih hrest
    constructor
    · rw [hn2, hn1]
    · rw [he2, he1]
      unfold survivingEdges
      simp only [List.map_cons, List.flatten_cons]
      rw [List.foldl_append]

/-! ## Lemmas on the edge list: uniqueness, last-wins lookup, membership -/

theorem edgeIsPair_eq {a b : Nat} {e : Nat × Nat × VRange}
    (h : edgeIsPair a b e = true) : e.1 = a ∧ e.2.1 = b := by
  unfold edgeIsPair at h
  rw [Bool.and_eq_true] at h
  exact ⟨by simpa using h.1, by simpa using h.2⟩

theorem edgeIsPair_of_eq {a b : Nat} {e : Nat × Nat × VRange}
    (h1 : e.1 = a) (h2 : e.2.1 = b) : edgeIsPair a b e = true := by
  simp [edgeIsPair, h1, h2]

theorem edgeIsPair_false_of_pair {a b x y : Nat} {e : Nat × Nat × VRange}
    (hab : edgeIsPair a b e = true) (hne : ¬(x = a ∧ y = b)) :
    edgeIsPair x y e = false := by
  cases hc : edgeIsPair x y e
  · rfl
  · obtain ⟨h1, h2⟩ := edgeIsPair_eq hc
    obtain ⟨h3, h4⟩ := edgeIsPair_eq hab
    exact absurd ⟨h1.symm.trans h3, h2.symm.trans h4⟩ hne

theorem edgeIsPair_triple_false {a b x y : Nat} {w : VRange} (hne : ¬(x = a ∧ y = b)) :
    edgeIsPair x y (a, b, w) = false := by
  cases hc : edgeIsPair x y (a, b, w)
  · rfl
  · obtain ⟨h1, h2⟩ := edgeIsPair_eq hc
    exact absurd ⟨h1.symm, h2.symm⟩ hne

theorem mem_updateEdgeList {es : List (Nat × Nat × VRange)} {a b : Nat} {w : VRange}
    {x : Nat × Nat × VRange} (h : x ∈ updateEdgeList es a b w) :
    x = (a, b, w) ∨ x ∈ es := by
  induction es with
  | nil =>
    unfold updateEdgeList at h
    rcases List.mem_singleton.mp h with rfl
    exact Or.inl rfl
  | cons e rest ih =>
    unfold updateEdgeList at h
    by_cases hpe : edgeIsPair a b e = true
    · rw [if_pos hpe] at h
      rcases List.mem_cons.mp h with rfl | h'
      · exact Or.inl rfl
      · exact Or.inr (List.mem_cons_of_mem e h')
    · rw [if_neg hpe] at h
      rcases List.mem_cons.mp h with hxe | h'
      · exact Or.inr (hxe ▸ List.mem_cons_self _ _)
      · rcases ih h' with h'' | h''
        · exact Or.inl h''
        · exact Or.inr (List.mem_cons_of_mem e h'')

theorem countP_updateEdgeList_ne {es : List (Nat × Nat × VRange)} {a b x y : Nat}
    {w : VRange} (hne : ¬(x = a ∧ y = b)) :
    (updateEdgeList es a b w).countP (edgeIsPair x y) = es.countP (edgeIsPair x y) := by
  induction es with
  | nil =>
    unfold updateEdgeList
    rw [List.countP_cons, edgeIsPair_triple_false hne]
    simp
  | cons e rest ih =>
    unfold updateEdgeList
    by_cases hpe : edgeIsPair a b e = true
    · rw [if_pos hpe]
      rw [List.countP_cons, List.countP_cons, edgeIsPair_triple_false hne,
        edgeIsPair_false_of_pair hpe hne]
    · rw [if_neg hpe]
      rw [List.countP_cons, List.countP_cons, ih]

theorem countP_updateEdgeList_self {es : List (Nat × Nat × VRange)} {a b : Nat}
    {w : VRange} (h1 : es.countP (edgeIsPair a b) ≤ 1) :
    (updateEdgeList es a b w).countP (edgeIsPair a b) ≤ 1 := by
  induction es with
  | nil =>
    unfold updateEdgeList
    rw [List.countP_cons, @edgeIsPair_of_eq a b (a, b, w) rfl rfl]
    simp
  | cons e rest ih =>
    unfold updateEdgeList
    by_cases hpe : edgeIsPair a b e = true
    · rw [if_pos hpe]
      rw [List.countP_cons] at h1 ⊢
      rw [hpe] at h1
      rw [@edgeIsPair_of_eq a b (a, b, w) rfl rfl]
      exact h1
    · rw [if_neg hpe]
      have hpe' : edgeIsPair a b e = false := by
        cases hx : edgeIsPair a b e
        · rfl
        · exact absurd hx hpe
      rw [List.countP_cons] at h1 ⊢
      rw [hpe'] at h1 ⊢
      simp only [Bool.false_eq_true, if_false, Nat.add_zero] at h1 ⊢
      exact ih h1

theorem countP_foldl_applyEdge :
    ∀ (l : List (Nat × Nat × VRange)) (es : List (Nat × Nat × VRange)),
      (∀ x y, es.countP (edgeIsPair x y) ≤ 1) →
      ∀ x y, (l.foldl applyEdge es).countP (edgeIsPair x y) ≤ 1 := by
  intro l
  induction l with
  | nil => intro es h x y; exact h x y
  | cons t rest ih =>
    intro es h x y
    rw [List.foldl_cons]
    refine ih (applyEdge es t) ?_ x y
    intro x' y'
    unfold applyEdge
    by_cases hp : x' = t.1 ∧ y' = t.2.1
    · obtain ⟨hx', hy'⟩ := hp
      subst hx'
      subst hy'
      exact countP_updateEdgeList_self (h _ _)
    · rw [countP_updateEdgeList_ne hp]
      exact h x' y'

theorem edgeLookup_updateEdgeList (es : List (Nat × Nat × VRange)) (a b : Nat)
    (w : VRange) (x y : Nat) :
    edgeLookup (updateEdgeList es a b w) x y =
      if x = a ∧ y = b then some w else edgeLookup es x y := by
  induction es with
  | nil =>
    unfold updateEdgeList edgeLookup
    by_cases hp : x = a ∧ y = b
    · obtain ⟨hx, hy⟩ := hp
      subst hx
      subst hy
      rw [List.find?_cons_of_pos _ (@edgeIsPair_of_eq x y (x, y, w) rfl rfl)]
      simp
    · rw [List.find?_cons_of_neg _ (by simp [edgeIsPair_triple_false hp]), if_neg hp]
  | cons e rest ih =>
    unfold updateEdgeList
    by_cases hpe : edgeIsPair a b e = true
    · rw [if_pos hpe]
      by_cases hp : x = a ∧ y = b
      · obtain ⟨hx, hy⟩ := hp
        subst hx
        subst hy
        unfold edgeLookup
        rw [List.find?_cons_of_pos _ (@edgeIsPair_of_eq x y (x, y, w) rfl rfl)]
        simp
      · unfold edgeLookup
        rw [List.find?_cons_of_neg _ (by simp [edgeIsPair_triple_false hp]),
          List.find?_cons_of_neg _ (by simp [edgeIsPair_false_of_pair hpe hp]),
          if_neg hp]
    · rw [if_neg hpe]
      by_cases hxye : edgeIsPair x y e = true
      · have hp : ¬(x = a ∧ y = b) := by
          intro hp
          obtain ⟨h1, h2⟩ := edgeIsPair_eq hxye
          obtain ⟨hx, hy⟩ := hp
          subst hx
          subst hy
          exact hpe (edgeIsPair_of_eq h1 h2)
        unfold edgeLookup
        rw [List.find?_cons_of_pos _ hxye, List.find?_cons_of_pos _ hxye, if_neg hp]
      · have hxye' : edgeIsPair x y e = false := by
          cases hc : edgeIsPair x y e
          · rfl
          · exact absurd hc hxye
        unfold edgeLookup
        rw [List.find?_cons_of_neg _ (by simp [hxye']),
          List.find?_cons_of_neg _ (by simp [hxye'])]
        exact ih

theorem edgeLookup_foldl_applyEdge :
    ∀ (l : List (Nat × Nat × VRange)) (es : List (Nat × Nat × VRange)) (x y : Nat),
      edgeLookup (l.foldl applyEdge es) x y =
        match (l.filter (edgeIsPair x y)).getLast? with
        | some t => some t.2.2
        | none => edgeLookup es x y := by
  intro l
  induction l with
  | nil => intro es x y; simp
  | cons t rest ih =>
    intro es x y
    rw [List.foldl_cons]
    rw [ih (applyEdge es t) x y]
    by_cases hpt : edgeIsPair x y t = true
    · rw [List.filter_cons_of_pos hpt]
      cases hrf : rest.filter (edgeIsPair x y) with
      | nil =>
        obtain ⟨h1, h2⟩ := edgeIsPair_eq hpt
        unfold applyEdge
        rw [edgeLookup_updateEdgeList, if_pos ⟨h1.symm, h2.symm⟩]
        simp
      | cons u us =>
        rw [List.getLast?_cons_cons]
        cases hgl : (u :: us).getLast? with
        | none => simp [List.getLast?_eq_none_iff] at hgl
        | some last => rfl
    · rw [List.filter_cons_of_neg (by simpa using hpt)]
      cases hrf : rest.filter (edgeIsPair x y) with
      | nil =>
        unfold applyEdge
        rw [edgeLookup_updateEdgeList]
        rw [if_neg (fun hp => by
          rw [@edgeIsPair_of_eq x y t hp.1.symm hp.2.symm] at hpt
          exact hpt rfl)]
      | cons u us =>
        cases hgl : (u :: us).getLast? with
        | none => simp [List.getLast?_eq_none_iff] at hgl
        | some last => rfl

theorem mem_foldl_applyEdge :
    ∀ {l : List (Nat × Nat × VRange)} {es : List (Nat × Nat × VRange)}
      {x : Nat × Nat × VRange}, x ∈ l.foldl applyEdge es →
      x ∈ es ∨ ∃ t ∈ l, x.1 = t.1 ∧ x.2.1 = t.2.1 := by
  intro l
  induction l with
  | nil => intro es x h; exact Or.inl h
  | cons t rest ih =>
    intro es x h
    rw [List.foldl_cons] at h
    rcases ih h with h' | ⟨u, hu, hx⟩
    · unfold applyEdge at h'
      rcases mem_updateEdgeList h' with rfl | h''
      · exact Or.inr ⟨t, List.mem_cons_self t rest, rfl, rfl⟩
      · exact Or.inl h''
    · exact Or.inr ⟨u, List.mem_cons_of_mem t hu, hx⟩

theorem survivorOf_shape {inverse : List (PackageName × Nat)} {v : Version}
    {kind : IncompKind} {t : Nat × Nat × VRange}
    (h : survivorOf inverse v kind = some t) :
    ∃ spn dpn, spn ≠ dpn ∧ assocLookup inverse spn = some t.1 ∧
      assocLookup inverse dpn = some t.2.1 := by
  cases kind with
  | otherKind => simp [survivorOf] at h
  | fromDependencyOf sp sv dp dr =>
    cases sp with
    | root => simp [survivorOf] at h
    | pkg spn se su =>
      cases dp with
      | root => simp [survivorOf] at h
      | pkg dpn de du =>
        by_cases hnm : spn = dpn
        · rw [survivorOf, if_pos hnm] at h
          cases h
        · by_cases hc : sv.contains v = true
          · cases hsi : assocLookup inverse spn with
            | none =>
              rw [survivorOf, if_neg hnm] at h
              simp only [hc, if_true, hsi] at h
              cases h
            | some si =>
              cases hdi : assocLookup inverse dpn with
              | none =>
                rw [survivorOf, if_neg hnm] at h
                simp only [hc, if_true, hsi, hdi] at h
                cases h
              | some di =>
                rw [survivorOf, if_neg hnm] at h
                simp only [hc, if_true, hsi, hdi, Option.some.injEq] at h
                subst h
                exact ⟨spn, dpn, hnm, hsi, hdi⟩
          · have hc' : sv.contains v = false := by
              cases hcv : sv.contains v
              · rfl
              · exact absurd hcv hc
            rw [survivorOf, if_neg hnm] at h
            simp only [hc', Bool.false_eq_true, if_false] at h
            cases h

theorem mem_survivingEdges {state : SolverState} {inverse : List (PackageName × Nat)}
    {sel : List (PubGrubPackage × Version)} {t : Nat × Nat × VRange}
    (h : t ∈ survivingEdges state inverse sel) :
    ∃ spn dpn, spn ≠ dpn ∧ assocLookup inverse spn = some t.1 ∧
      assocLookup inverse dpn = some t.2.1 := by
  unfold survivingEdges at h
  rw [List.mem_flatten] at h
  obtain ⟨l, hl, ht⟩ := h
  rw [List.mem_map] at hl
  obtain ⟨e, _, rfl⟩ := hl
  unfold entrySurvivors at ht
  rw [List.mem_filterMap] at ht
  obtain ⟨id, _, hid⟩ := ht
  cases hk : state.store.get? id with
  | none =>
    rw [hk] at hid
    cases hid
  | some kind =>
    rw [hk] at hid
    simp only [Option.some_bind] at hid
    exact survivorOf_shape hid

/-! ## Per-entry lemmas used by the claims -/

theorem countP_filterMap {α β : Type} (f : α → Option β) (p : β → Bool) (l : List α) :
    (l.filterMap f).countP p = l.countP (fun a => ((f a).map p).getD false) := by
  induction l with
  | nil => rfl
  | cons a rest ih =>
    rw [List.filterMap_cons]
    cases hf : f a with
    | none =>
      rw [List.countP_cons]
      simp [hf, ih]
    | some b =>
      rw [List.countP_cons, List.countP_cons]
      simp [hf, ih]

theorem entryNodeD_of_step_success {inputs : BuildInputs} {st0 st1 : BuildState}
    {m : PackageName} {u : Option Url} {v : Version}
    (h : addPackageStep inputs st0 (PubGrubPackage.pkg m none u, v) = some st1) :
    ∃ d, entryNodeD inputs (PubGrubPackage.pkg m none u, v) = some d ∧ d.name = m := by
  cases u with
  | none =>
    cases hed : inputs.editables.get m with
    | some edm =>
      obtain ⟨ed, md⟩ := edm
      exact ⟨Dist.editable m ed, by simp [entryNodeD, hed], rfl⟩
    | none =>
      cases hpin : inputs.pins.get m v with
      | none =>
        simp only [addPackageStep, hed, hpin] at h
        cases h
      | some pinned =>
        exact ⟨pinned, by simp [entryNodeD, hed, hpin], FilePins.get_name hpin⟩
  | some url =>
    cases hed : inputs.editables.get m with
    | some edm =>
      obtain ⟨ed, md⟩ := edm
      exact ⟨Dist.editable m ed, by simp [entryNodeD, hed], rfl⟩
    | none =>
      exact ⟨Dist.fromUrl m (resolveUrl inputs.redirects url),
        by simp [entryNodeD, hed], rfl⟩

theorem entryDiag_shape {inputs : BuildInputs} {e : PubGrubPackage × Version}
    {dg : Diagnostic} (h : entryDiag inputs e = some dg) :
    ∃ m c u v, e = (PubGrubPackage.pkg m (some c) u, v) ∧
      ∃ dist, dg = Diagnostic.missingExtra dist c ∧ dist.name = m := by
  obtain ⟨p, v⟩ := e
  cases p with
  | root => simp [entryDiag] at h
  | pkg m extra u =>
    cases extra with
    | none => cases u <;> simp [entryDiag] at h
    | some c =>
      refine ⟨m, c, u, v, rfl, ?_⟩
      cases u with
      | none =>
        cases hed : inputs.editables.get m with
        | some edm =>
          obtain ⟨ed, md⟩ := edm
          by_cases hin : c ∈ md.provides_extras
          · simp [entryDiag, hed, hin] at h
          · simp only [entryDiag, hed, if_neg hin, Option.some.injEq] at h
            exact ⟨Dist.editable m ed, h.symm, rfl⟩
        | none =>
          cases hdist : assocLookup inputs.distributions (PackageId.registry m v) with
          | none => simp [entryDiag, hed, hdist] at h
          | some md =>
            by_cases hin : c ∈ md.provides_extras
            · simp [entryDiag, hed, hdist, hin] at h
            · cases hpin : inputs.pins.get m v with
              | none => simp [entryDiag, hed, hdist, if_neg hin, hpin] at h
              | some pinned =>
                simp only [entryDiag, hed, hdist, if_neg hin, hpin] at h
                have h2 : Diagnostic.missingExtra pinned c = dg := by simpa using h
                exact ⟨pinned, h2.symm, FilePins.get_name hpin⟩
      | some url =>
        cases hed : inputs.editables.get m with
        | some edm =>
          obtain ⟨ed, md⟩ := edm
          by_cases hin : c ∈ md.provides_extras
          · simp [entryDiag, hed, hin] at h
          · simp only [entryDiag, hed, if_neg hin, Option.some.injEq] at h
            exact ⟨Dist.editable m ed, h.symm, rfl⟩
        | none =>
          cases hdist : assocLookup inputs.distributions (PackageId.url m url) with
          | none => simp [entryDiag, hed, hdist] at h
          | some md =>
            by_cases hin : c ∈ md.provides_extras
            · simp [entryDiag, hed, hdist, hin] at h
            · simp only [entryDiag, hed, hdist, if_neg hin, Option.some.injEq] at h
              exact ⟨Dist.fromUrl m (resolveUrl inputs.redirects url), h.symm, rfl⟩

theorem baseDistOf_name {inputs : BuildInputs} {n : PackageName} {u : Option Url}
    {v : Version} {b : Dist} (h : baseDistOf inputs n u v = some b) : b.name = n := by
  unfold baseDistOf at h
  cases hed : inputs.editables.get n with
  | some edm =>
    obtain ⟨ed, md⟩ := edm
    rw [hed] at h
    cases h
    rfl
  | none =>
    rw [hed] at h
    cases u with
    | none => exact FilePins.get_name h
    | some url =>
      cases h
      rfl

theorem entryDiag_of_missing {inputs : BuildInputs} {st0 st1 : BuildState}
    {m : PackageName} {c : ExtraName} {u : Option Url} {v : Version}
    (hs : addPackageStep inputs st0 (PubGrubPackage.pkg m (some c) u, v) = some st1)
    (hmiss : extraIsMissing inputs m c u v = true) :
    ∃ b, baseDistOf inputs m u v = some b ∧
      entryDiag inputs (PubGrubPackage.pkg m (some c) u, v) =
        some (Diagnostic.missingExtra b c) := by
  cases hed : inputs.editables.get m with
  | some edm =>
    obtain ⟨ed, md⟩ := edm
    have hin : c ∉ md.provides_extras := by
      simp only [extraIsMissing, hed, Bool.not_eq_true'] at hmiss
      simpa using hmiss
    refine ⟨Dist.editable m ed, by simp [baseDistOf, hed], ?_⟩
    cases u <;> simp [entryDiag, hed, hin]
  | none =>
    cases u with
    | none =>
      cases hdist : assocLookup inputs.distributions (PackageId.registry m v) with
      | none => simp [extraIsMissing, hed, hdist] at hmiss
      | some md =>
        have hin : c ∉ md.provides_extras := by
          simp only [extraIsMissing, hed, hdist, Bool.not_eq_true'] at hmiss
          simpa using hmiss
        cases hpin : inputs.pins.get m v with
        | none =>
          simp only [addPackageStep, hed, hdist, if_neg hin, hpin] at hs
          cases hs
        | some pinned =>
          refine ⟨pinned, by simp [baseDistOf, hed, hpin], ?_⟩
          simp [entryDiag, hed, hdist, if_neg hin, hpin]
    | some url =>
      cases hdist : assocLookup inputs.distributions (PackageId.url m url) with
      | none => simp [extraIsMissing, hed, hdist] at hmiss
      | some md =>
        have hin : c ∉ md.provides_extras := by
          simp only [extraIsMissing, hed, hdist, Bool.not_eq_true'] at hmiss
          simpa using hmiss
        refine ⟨Dist.fromUrl m (resolveUrl inputs.redirects url),
          by simp [baseDistOf, hed], ?_⟩
        simp [entryDiag, hed, hdist, if_neg hin]

/-! ## Claim predicates -/

/-- A selection entry that is a no-extra variant (plain or plain+url) of
package `n`. -/
def isNoExtraVariantOf (n : PackageName) (e : PubGrubPackage × Version) : Bool :=
  match e.1 with
  | .pkg m none _ => m == n
  | _ => false

/-- A selection entry that is a variant of package `n` carrying extra `c`
(with or without url). -/
def isExtraVariantOf (n : PackageName) (c : ExtraName)
    (e : PubGrubPackage × Version) : Bool :=
  match e.1 with
  | .pkg m (some cx) _ => m == n && cx == c
  | _ => false

/-! ## Claim theorems: graph construction -/

/-- C1 (amended): in every successfully constructed graph, the number of
nodes carrying package name `n` equals the number of selected no-extra
variants of `n` (plain and plain+url each create one node); variants
carrying an extra never create a node. In particular there is exactly one
node per name exactly when one no-extra variant of that name was selected. -/
theorem c1_one_node_per_no_extra_variant
    {sel : List (PubGrubPackage × Version)} {inputs : BuildInputs}
    {state : SolverState} {g : ResolutionGraph}
    (h : ResolutionGraph.from_state sel inputs state = some g) (n : PackageName) :
    g.petgraph.nodes.countP (fun d => d.name == n) =
      sel.countP (isNoExtraVariantOf n) := by
  obtain ⟨st, hnp, hep, _, _, _⟩ := from_state_parts h
  obtain ⟨hnodes, _, _, _⟩ := nodePass_char hnp
  obtain ⟨hn2, _⟩ := edgePass_fold hep
  rw [hn2, hnodes, countP_filterMap]
  apply List.countP_congr
  intro e he
  have hnp' : sel.foldlM (addPackageStep inputs) ⟨⟨[], []⟩, [], [], []⟩ = some st := hnp
  obtain ⟨p, v⟩ := e
  cases p with
  | root => simp [entryNodeD, isNoExtraVariantOf]
  | pkg m extra u =>
    cases extra with
    | some c => simp [entryNodeD, isNoExtraVariantOf]
    | none =>
      obtain ⟨st0, st1, hstep⟩ := foldlM_opt_success_of_mem hnp' he
      obtain ⟨d, hd, hname⟩ := entryNodeD_of_step_success hstep
      simp [hd, hname, isNoExtraVariantOf]

/-- C4: whenever a selected no-extra variant of `n` (plain or plain+url,
any version) has `n` in the editable registry, the node materialized for it
is the editable distribution — never a registry or URL pin — and that
editable node is in the graph. -/
theorem c4_editable_precedence
    {sel : List (PubGrubPackage × Version)} {inputs : BuildInputs}
    {state : SolverState} {g : ResolutionGraph} {n : PackageName}
    {u : Option Url} {v : Version} {ed : LocalEditable} {md : Metadata21}
    (h : ResolutionGraph.from_state sel inputs state = some g)
    (hmem : (PubGrubPackage.pkg n none u, v) ∈ sel)
    (hed : inputs.editables.get n = some (ed, md)) :
    entryNodeD inputs (PubGrubPackage.pkg n none u, v) = some (Dist.editable n ed) ∧
    g.petgraph.nodes = sel.filterMap (entryNodeD inputs) ∧
    Dist.editable n ed ∈ g.petgraph.nodes := by
  have h1 : entryNodeD inputs (PubGrubPackage.pkg n none u, v) =
      some (Dist.editable n ed) := by
    cases u <;> simp [entryNodeD, hed]
  obtain ⟨st, hnp, hep, _, _, _⟩ := from_state_parts h
  obtain ⟨hnodes, _, _, _⟩ := nodePass_char hnp
  obtain ⟨hn2, _⟩ := edgePass_fold hep
  have h2 : g.petgraph.nodes = sel.filterMap (entryNodeD inputs) := by
    rw [hn2, hnodes]
  refine ⟨h1, h2, ?_⟩
  rw [h2]
  exact List.mem_filterMap.mpr ⟨_, hmem, h1⟩

/-- C5: materializing a selected plain (no-extra, no-url) variant aborts
construction precisely when the name is neither in the editable registry nor
pinned for that version; when an editable entry or a pin exists the step
never fails, and when neither exists the whole construction aborts
(the panic is modelled as `none`), for any selection containing the
variant. -/
theorem c5_plain_materialization_fatal (inputs : BuildInputs) (n : PackageName)
    (v : Version) :
    (∀ st, addPackageStep inputs st (PubGrubPackage.pkg n none none, v) = none ↔
      (inputs.editables.get n = none ∧ inputs.pins.get n v = none)) ∧
    (inputs.editables.get n = none → inputs.pins.get n v = none →
      ∀ state sel1 sel2, ResolutionGraph.from_state
        (sel1 ++ (PubGrubPackage.pkg n none none, v) :: sel2) inputs state = none) := by
  constructor
  · intro st
    cases hed : inputs.editables.get n with
    | some edm =>
      obtain ⟨ed, md⟩ := edm
      simp [addPackageStep, hed]
    | none =>
      cases hpin : inputs.pins.get n v with
      | none => simp [addPackageStep, hed, hpin]
      | some pinned => simp [addPackageStep, hed, hpin]
  · intro hed hpin state sel1 sel2
    have hstep : ∀ st, addPackageStep inputs st (PubGrubPackage.pkg n none none, v) =
        none := by
      intro st
      simp [addPackageStep, hed, hpin]
    have hnp : nodePass (sel1 ++ (PubGrubPackage.pkg n none none, v) :: sel2) inputs =
        none := by
      unfold nodePass
      rw [foldlM_opt_append]
      cases hfl : sel1.foldlM (addPackageStep inputs) ⟨⟨[], []⟩, [], [], []⟩ with
      | none => rfl
      | some st =>
        simp only [Option.some_bind]
        rw [foldlM_opt_cons, hstep st]
        rfl
    unfold ResolutionGraph.from_state
    rw [hnp]
    rfl

/-- C6: in every successfully constructed graph no edge is a self-loop by
name: the source and target nodes of every edge exist and carry different
package names (same-name justifications are filtered out before edge
insertion). -/
theorem c6_no_self_loops
    {sel : List (PubGrubPackage × Version)} {inputs : BuildInputs}
    {state : SolverState} {g : ResolutionGraph}
    (h : ResolutionGraph.from_state sel inputs state = some g) :
    ∀ e ∈ g.petgraph.edges, ∃ ds dt,
      g.petgraph.nodes[e.1]? = some ds ∧ g.petgraph.nodes[e.2.1]? = some dt ∧
      ds.name ≠ dt.name := by
  obtain ⟨st, hnp, hep, _, _, _⟩ := from_state_parts h
  obtain ⟨_, _, hinv, hedg0⟩ := nodePass_char hnp
  obtain ⟨hn2, he2⟩ := edgePass_fold hep
  intro e he
  rw [he2, hedg0] at he
  rcases mem_foldl_applyEdge he with h0 | ⟨t, ht, hx1, hx2⟩
  · cases h0
  · obtain ⟨spn, dpn, hne, hsi, hdi⟩ := mem_survivingEdges ht
    obtain ⟨ds, hget1, hname1⟩ := hinv (spn, t.1) (assocLookup_some_mem hsi)
    obtain ⟨dt, hget2, hname2⟩ := hinv (dpn, t.2.1) (assocLookup_some_mem hdi)
    refine ⟨ds, dt, ?_, ?_, ?_⟩
    · rw [hn2, hx1]
      exact hget1
    · rw [hn2, hx2]
      exact hget2
    · rw [hname1, hname2]
      exact hne

/-- C2: for every successful construction the graph holds at most one edge
per ordered node pair, and the weight recorded for a pair is the
`dependency_range` of the last justification surviving the edge-pass filters
(package-shaped endpoints, distinct names, `self_version` containing the
iterated selected version) that maps to that pair — earlier ranges are
overwritten, never duplicated. -/
theorem c2_edge_upsert_last_wins
    {sel : List (PubGrubPackage × Version)} {inputs : BuildInputs}
    {state : SolverState} {g : ResolutionGraph}
    (h : ResolutionGraph.from_state sel inputs state = some g) :
    (∀ a b, g.petgraph.edges.countP (edgeIsPair a b) ≤ 1) ∧
    (∃ inv, buildInverse sel inputs = some inv ∧
      ∀ a b, edgeLookup g.petgraph.edges a b =
        ((survivingEdges state inv sel).filter (edgeIsPair a b)).getLast?.map
          (fun t => t.2.2)) := by
  obtain ⟨st, hnp, hep, _, _, _⟩ := from_state_parts h
  obtain ⟨_, _, _, hedg0⟩ := nodePass_char hnp
  obtain ⟨_, he2⟩ := edgePass_fold hep
  rw [hedg0] at he2
  constructor
  · intro a b
    rw [he2]
    exact countP_foldl_applyEdge _ [] (fun x y => by simp) a b
  · refine ⟨st.inverse, ?_, ?_⟩
    · unfold buildInverse
      rw [hnp]
      rfl
    · intro a b
      rw [he2, edgeLookup_foldl_applyEdge]
      cases hgl : ((survivingEdges state st.inverse sel).filter
          (edgeIsPair a b)).getLast? with
      | none => rfl
      | some t => rfl

/-- C10: a successful construction implies that every justification
surviving the edge-pass filters refers to two package names that were
materialized as graph nodes; the panicking index lookup (modelled as `none`,
aborting construction) can only be avoided when both endpoint names carry
nodes. -/
theorem c10_surviving_justifications_have_nodes
    {sel : List (PubGrubPackage × Version)} {inputs : BuildInputs}
    {state : SolverState} {g : ResolutionGraph} {p : PubGrubPackage} {v : Version}
    {ids : List Nat} {id : Nat} {spn dpn : PackageName} {se de : Option ExtraName}
    {su du : Option Url} {sv dr : VRange}
    (h : ResolutionGraph.from_state sel inputs state = some g)
    (hmem : (p, v) ∈ sel)
    (hids : assocLookup state.incompatibilities p = some ids)
    (hid : id ∈ ids)
    (hkind : state.store.get? id = some (IncompKind.fromDependencyOf
      (PubGrubPackage.pkg spn se su) sv (PubGrubPackage.pkg dpn de du) dr))
    (hneq : spn ≠ dpn)
    (hcont : sv.contains v = true) :
    (∃ d ∈ g.petgraph.nodes, d.name = spn) ∧
    (∃ d ∈ g.petgraph.nodes, d.name = dpn) := by
  obtain ⟨st, hnp, hep, _, _, _⟩ := from_state_parts h
  obtain ⟨_, _, hinv, _⟩ := nodePass_char hnp
  obtain ⟨hn2, _⟩ := edgePass_fold hep
  obtain ⟨g0, g1, hstepE⟩ := foldlM_opt_success_of_mem hep hmem
  unfold edgesForEntry at hstepE
  simp only [hids] at hstepE
  obtain ⟨gg, gg', hstepK⟩ := foldlM_opt_success_of_mem hstepE hid
  simp only [hkind] at hstepK
  cases hsi : assocLookup st.inverse spn with
  | none =>
    simp only [addEdgeStep, if_neg hneq, hcont, if_true, hsi] at hstepK
    cases hstepK
  | some si =>
    cases hdi : assocLookup st.inverse dpn with
    | none =>
      simp only [addEdgeStep, if_neg hneq, hcont, if_true, hsi, hdi] at hstepK
      cases hstepK
    | some di =>
      obtain ⟨ds, hget1, hname1⟩ := hinv (spn, si) (assocLookup_some_mem hsi)
      obtain ⟨dt, hget2, hname2⟩ := hinv (dpn, di) (assocLookup_some_mem hdi)
      rw [hn2]
      exact ⟨⟨ds, List.getElem?_mem hget1, hname1⟩,
        ⟨dt, List.getElem?_mem hget2, hname2⟩⟩

/-- C3 (amended): when a selection contains exactly one variant of `P` with
extra `c` and the metadata consulted for it does not declare `c`, the
construction (when it succeeds) records exactly one `MissingExtra`
diagnostic whose dist is the materialized base distribution of `P` and whose
extra is `c`; the variant contributes no graph node (every node stems from a
no-extra variant), and the diagnostic never aborts construction. -/
theorem c3_missing_extra_diagnostic
    {sel : List (PubGrubPackage × Version)} {inputs : BuildInputs}
    {state : SolverState} {g : ResolutionGraph} {P : PackageName} {c : ExtraName}
    {u : Option Url} {v : Version}
    (h : ResolutionGraph.from_state sel inputs state = some g)
    (hmem : (PubGrubPackage.pkg P (some c) u, v) ∈ sel)
    (huniq : sel.countP (isExtraVariantOf P c) = 1)
    (hmiss : extraIsMissing inputs P c u v = true) :
    ∃ b, baseDistOf inputs P u v = some b ∧
      g.diagnostics.countP (fun dg => dg == Diagnostic.missingExtra b c) = 1 ∧
      g.petgraph.nodes = sel.filterMap (entryNodeD inputs) ∧
      entryNodeD inputs (PubGrubPackage.pkg P (some c) u, v) = none := by
  obtain ⟨st, hnp, hep, _, _, hdg⟩ := from_state_parts h
  obtain ⟨hnodes, hdiags, _, _⟩ := nodePass_char hnp
  obtain ⟨hn2, _⟩ := edgePass_fold hep
  have hnp' : sel.foldlM (addPackageStep inputs) ⟨⟨[], []⟩, [], [], []⟩ = some st := hnp
  obtain ⟨st0, st1, hstep⟩ := foldlM_opt_success_of_mem hnp' hmem
  obtain ⟨b, hb, hdiag0⟩ := entryDiag_of_missing hstep hmiss
  have hbname : b.name = P := baseDistOf_name hb
  refine ⟨b, hb, ?_, by rw [hn2, hnodes], by simp [entryNodeD]⟩
  rw [hdg, hdiags, countP_filterMap]
  have hub : ∀ e ∈ sel,
      (fun e => (Option.map (fun dg => dg == Diagnostic.missingExtra b c)
        (entryDiag inputs e)).getD false) e = true →
      isExtraVariantOf P c e = true := by
    intro e _ hpe
    cases hde : entryDiag inputs e with
    | none => simp [hde] at hpe
    | some dg =>
      have hdg2 : dg = Diagnostic.missingExtra b c := by
        simp only [hde] at hpe
        simpa using hpe
      obtain ⟨m, cx, u2, v2, rfl, dist, hdist, hdname⟩ := entryDiag_shape hde
      cases hdist.symm.trans hdg2
      unfold isExtraVariantOf
      simp [hbname ▸ hdname]
  have hle := List.countP_mono_left hub
  have hpos : 0 < sel.countP (fun e =>
      (Option.map (fun dg => dg == Diagnostic.missingExtra b c)
        (entryDiag inputs e)).getD false) := by
    rw [List.countP_pos_iff]
    refine ⟨(PubGrubPackage.pkg P (some c) u, v), hmem, ?_⟩
    rw [hdiag0]
    simp
  omega

/-! ## Concrete inputs for counterexamples and witnesses -/

/-- Pin table pinning `a` at version 1. -/
def exPinsA : FilePins := [(("a", 1), PinnedSource.registry 1)]

/-- Inputs with only the pin for `a`. -/
def exInputsA : BuildInputs := ⟨exPinsA, [], [], [], []⟩

/-- A selection holding both the plain and the plain+url variant of `a`. -/
def exSelA : List (PubGrubPackage × Version) :=
  [(PubGrubPackage.pkg "a" none none, 1), (PubGrubPackage.pkg "a" none (some "u"), 1)]

/-- Solver state with empty incompatibility lists for the two variants. -/
def exStateA : SolverState :=
  ⟨[(PubGrubPackage.pkg "a" none none, []),
    (PubGrubPackage.pkg "a" none (some "u"), [])], []⟩

/-- The graph produced for `exSelA`: two nodes named `a`. -/
def exGraphA : ResolutionGraph :=
  ⟨⟨[Dist.registry "a" 1, Dist.fromUrl "a" "u"], []⟩, [], [], []⟩

/-- Two packages `a`, `b`, with two justifications for the same `a → b`
edge carrying different ranges. -/
def exSelB : List (PubGrubPackage × Version) :=
  [(PubGrubPackage.pkg "a" none none, 1), (PubGrubPackage.pkg "b" none none, 2)]

/-- Pins for `exSelB`. -/
def exPinsB : FilePins :=
  [(("a", 1), PinnedSource.registry 1), (("b", 2), PinnedSource.registry 2)]

/-- Inputs for `exSelB`. -/
def exInputsB : BuildInputs := ⟨exPinsB, [], [], [], []⟩

/-- Solver state for `exSelB`: two dependency justifications of `b` from
`a`, ranges `[1,2]` then `[1,3]`. -/
def exStateB : SolverState :=
  ⟨[(PubGrubPackage.pkg "a" none none, [0, 1]),
    (PubGrubPackage.pkg "b" none none, [])],
   [IncompKind.fromDependencyOf (PubGrubPackage.pkg "a" none none) ⟨0, 5⟩
      (PubGrubPackage.pkg "b" none none) ⟨1, 2⟩,
    IncompKind.fromDependencyOf (PubGrubPackage.pkg "a" none none) ⟨0, 5⟩
      (PubGrubPackage.pkg "b" none none) ⟨1, 3⟩]⟩

/-- The graph for `exSelB`: one `a → b` edge, labelled with the last range. -/
def exGraphB : ResolutionGraph :=
  ⟨⟨[Dist.registry "a" 1, Dist.registry "b" 2], [(0, 1, ⟨1, 3⟩)]⟩, [], [], []⟩

/-- An editable project. -/
def exEd : LocalEditable := ⟨"./ed-proj"⟩

/-- Inputs whose editable registry holds `e` (declaring extra `x`). -/
def exInputsC : BuildInputs := ⟨[], [], [], [], [("e", exEd, ⟨["x"]⟩)]⟩

/-- A selection of the plain variant of the editable `e`. -/
def exSelC : List (PubGrubPackage × Version) := [(PubGrubPackage.pkg "e" none none, 3)]

/-- Solver state for `exSelC`. -/
def exStateC : SolverState := ⟨[(PubGrubPackage.pkg "e" none none, [])], []⟩

/-- The graph for `exSelC`: the editable node. -/
def exGraphC : ResolutionGraph :=
  ⟨⟨[Dist.editable "e" exEd], []⟩, [], [("e", exEd, ⟨["x"]⟩)], []⟩

/-- The editable project for the missing-extra examples. -/
def exEdP : LocalEditable := ⟨"./p"⟩

/-- Inputs whose editable registry holds `p` declaring no extras. -/
def exInputsD : BuildInputs := ⟨[], [], [], [], [("p", exEdP, ⟨[]⟩)]⟩

/-- A selection with both variant shapes of `p[c]`. -/
def exSelD : List (PubGrubPackage × Version) :=
  [(PubGrubPackage.pkg "p" (some "c") none, 1),
   (PubGrubPackage.pkg "p" (some "c") (some "u"), 1)]

/-- Solver state for `exSelD`. -/
def exStateD : SolverState :=
  ⟨[(PubGrubPackage.pkg "p" (some "c") none, []),
    (PubGrubPackage.pkg "p" (some "c") (some "u"), [])], []⟩

/-- A selection with a single `p[c]` variant. -/
def exSelE : List (PubGrubPackage × Version) :=
  [(PubGrubPackage.pkg "p" (some "c") none, 1)]

/-- Solver state for `exSelE`. -/
def exStateE : SolverState := ⟨[(PubGrubPackage.pkg "p" (some "c") none, [])], []⟩

/-- The graph for `exSelE`: no nodes, one missing-extra diagnostic. -/
def exGraphE : ResolutionGraph :=
  ⟨⟨[], []⟩, [], [("p", exEdP, ⟨[]⟩)],
   [Diagnostic.missingExtra (Dist.editable "p" exEdP) "c"]⟩

/-! ## Counterexamples and witnesses: graph construction -/

/-- C1 counterexample: a selection containing both the plain and the
plain+url variant of `a` successfully builds a graph with TWO nodes named
`a`, refuting "exactly one node per distinct real package name, no matter
how many variants of that name appear". -/
theorem c1_counterexample :
    ResolutionGraph.from_state exSelA exInputsA exStateA = some exGraphA ∧
    exGraphA.petgraph.nodes.countP (fun d => d.name == "a") = 2 := by
  constructor
  · decide
  · decide

/-- C1 witness: the amended count equation evaluated on `exSelA`. -/
theorem c1_witness :
    ResolutionGraph.from_state exSelA exInputsA exStateA = some exGraphA ∧
    exGraphA.petgraph.nodes.countP (fun d => d.name == "a") =
      exSelA.countP (isNoExtraVariantOf "a") :=
  ⟨by decide, @c1_one_node_per_no_extra_variant exSelA exInputsA exStateA exGraphA
    (by decide) "a"⟩

/-- C2 witness: on `exSelB` the two justifications for `a → b` collapse to
one edge whose label is the last surviving range. -/
theorem c2_witness :
    ResolutionGraph.from_state exSelB exInputsB exStateB = some exGraphB ∧
    ((∀ a b, exGraphB.petgraph.edges.countP (edgeIsPair a b) ≤ 1) ∧
     (∃ inv, buildInverse exSelB exInputsB = some inv ∧
       ∀ a b, edgeLookup exGraphB.petgraph.edges a b =
         ((survivingEdges exStateB inv exSelB).filter (edgeIsPair a b)).getLast?.map
           (fun t => t.2.2))) :=
  ⟨by decide, @c2_edge_upsert_last_wins exSelB exInputsB exStateB exGraphB (by decide)⟩

/-- C3 counterexample: selecting both shapes of `p[c]` (editable `p`
declaring no extras) records TWO identical `MissingExtra` diagnostics,
refuting "exactly one MissingExtra diagnostic" for every selection
containing such a variant. -/
theorem c3_counterexample :
    (ResolutionGraph.from_state exSelD exInputsD exStateD).map
      (fun g => g.diagnostics.countP
        (fun dg => dg == Diagnostic.missingExtra (Dist.editable "p" exEdP) "c")) =
      some 2 := by decide

/-- C3 witness: with a single `p[c]` variant selected, exactly one
diagnostic against the editable base distribution results. -/
theorem c3_witness :
    ResolutionGraph.from_state exSelE exInputsD exStateE = some exGraphE ∧
    (PubGrubPackage.pkg "p" (some "c") none, 1) ∈ exSelE ∧
    exSelE.countP (isExtraVariantOf "p" "c") = 1 ∧
    extraIsMissing exInputsD "p" "c" none 1 = true ∧
    (∃ b, baseDistOf exInputsD "p" none 1 = some b ∧
      exGraphE.diagnostics.countP (fun dg => dg == Diagnostic.missingExtra b "c") = 1 ∧
      exGraphE.petgraph.nodes = exSelE.filterMap (entryNodeD exInputsD) ∧
      entryNodeD exInputsD (PubGrubPackage.pkg "p" (some "c") none, 1) = none) :=
  ⟨by decide, by decide, by decide, by decide,
   @c3_missing_extra_diagnostic exSelE exInputsD exStateE exGraphE "p" "c" none 1
     (by decide) (by decide) (by decide) (by decide)⟩

/-- C4 witness: the editable `e` materializes as the editable node. -/
theorem c4_witness :
    ResolutionGraph.from_state exSelC exInputsC exStateC = some exGraphC ∧
    (PubGrubPackage.pkg "e" none none, 3) ∈ exSelC ∧
    exInputsC.editables.get "e" = some (exEd, ⟨["x"]⟩) ∧
    (entryNodeD exInputsC (PubGrubPackage.pkg "e" none none, 3) =
        some (Dist.editable "e" exEd) ∧
      exGraphC.petgraph.nodes = exSelC.filterMap (entryNodeD exInputsC) ∧
      Dist.editable "e" exEd ∈ exGraphC.petgraph.nodes) :=
  ⟨by decide, by decide, by decide,
   @c4_editable_precedence exSelC exInputsC exStateC exGraphC "e" none 3 exEd ⟨["x"]⟩
     (by decide) (by decide) (by decide)⟩

/-- C5 witness: with no editable entry and no pin for `q`, construction of a
selection containing the plain variant of `q` aborts. -/
theorem c5_witness :
    ResolutionGraph.from_state [(PubGrubPackage.pkg "q" none none, 5)]
      ⟨[], [], [], [], []⟩ ⟨[], []⟩ = none :=
  (c5_plain_materialization_fatal ⟨[], [], [], [], []⟩ "q" 5).2 rfl rfl ⟨[], []⟩ [] []

/-- C6 witness: the `a → b` edge of `exGraphB` connects differently named
nodes. -/
theorem c6_witness :
    ResolutionGraph.from_state exSelB exInputsB exStateB = some exGraphB ∧
    (∀ e ∈ exGraphB.petgraph.edges, ∃ ds dt,
      exGraphB.petgraph.nodes[e.1]? = some ds ∧
      exGraphB.petgraph.nodes[e.2.1]? = some dt ∧ ds.name ≠ dt.name) :=
  ⟨by decide, @c6_no_self_loops exSelB exInputsB exStateB exGraphB (by decide)⟩

/-- C10 witness: the surviving justification of `exStateB` names two
materialized packages. -/
theorem c10_witness :
    ResolutionGraph.from_state exSelB exInputsB exStateB = some exGraphB ∧
    (PubGrubPackage.pkg "a" none none, 1) ∈ exSelB ∧
    assocLookup exStateB.incompatibilities (PubGrubPackage.pkg "a" none none) =
      some [0, 1] ∧
    (0 : Nat) ∈ [0, 1] ∧
    exStateB.store.get? 0 = some (IncompKind.fromDependencyOf
      (PubGrubPackage.pkg "a" none none) ⟨0, 5⟩
      (PubGrubPackage.pkg "b" none none) ⟨1, 2⟩) ∧
    ("a" : PackageName) ≠ "b" ∧
    (VRange.contains ⟨0, 5⟩ 1 = true) ∧
    ((∃ d ∈ exGraphB.petgraph.nodes, d.name = "a") ∧
     (∃ d ∈ exGraphB.petgraph.nodes, d.name = "b")) :=
  ⟨by decide, by decide, by decide, by decide, by decide, by decide, by decide,
   @c10_surviving_justifications_have_nodes exSelB exInputsB exStateB exGraphB
     (PubGrubPackage.pkg "a" none none) 1 [0, 1] 0 "a" "b" none none none none
     ⟨0, 5⟩ ⟨1, 2⟩ (by decide) (by decide) (by decide) (by decide) (by decide)
     (by decide) (by decide)⟩

/-! ## String lemmas for the renderer -/

theorem strToList_append (a b : String) : (a ++ b).toList = a.toList ++ b.toList := by
  simp [String.toList]

theorem splitNlChars_ne_nil : ∀ (l : List Char), splitNlChars l ≠ [] := by
  intro l
  induction l with
  | nil => simp [splitNlChars]
  | cons c cs ih =>
    unfold splitNlChars
    cases hg : splitNlChars cs with
    | nil => simp
    | cons g gs =>
      by_cases hc : c = '\n' <;> simp [hc]

theorem splitNlChars_no_nl : ∀ {l : List Char}, '\n' ∉ l → splitNlChars l = [l] := by
  intro l
  induction l with
  | nil => intro _; rfl
  | cons c cs ih =>
    intro h
    have hc : c ≠ '\n' := fun hc => h (hc ▸ List.mem_cons_self c cs)
    have hcs : '\n' ∉ cs := fun hm => h (List.mem_cons_of_mem c hm)
    unfold splitNlChars
    rw [ih hcs]
    simp [hc]

theorem splitNlChars_append_last : ∀ (l1 : List Char) {l2 : List Char}, '\n' ∉ l2 →
    splitNlChars (l1 ++ '\n' :: l2) = splitNlChars l1 ++ [l2] := by
  intro l1
  induction l1 with
  | nil =>
    intro l2 h2
    simp only [List.nil_append]
    unfold splitNlChars
    rw [splitNlChars_no_nl h2]
    simp [splitNlChars]
  | cons c cs ih =>
    intro l2 h2
    simp only [List.cons_append]
    unfold splitNlChars
    rw [ih h2]
    cases hg : splitNlChars cs with
    | nil => exact absurd hg (splitNlChars_ne_nil cs)
    | cons g gs =>
      by_cases hc : c = '\n' <;> simp [hc]

theorem linesOf_append_last {a q : String} (hq : '\n' ∉ q.toList) :
    linesOf (a ++ "\n" ++ q) = linesOf a ++ [q] := by
  unfold linesOf
  have h1 : (a ++ "\n" ++ q).toList = a.toList ++ '\n' :: q.toList := by
    rw [strToList_append, strToList_append]
    simp
  rw [h1, splitNlChars_append_last a.toList hq]
  simp

theorem linesOf_no_nl {a : String} (ha : '\n' ∉ a.toList) : linesOf a = [a] := by
  unfold linesOf
  rw [splitNlChars_no_nl ha]
  rfl

theorem append_foldl_nl (s : String) :
    ∀ (xs : List String) (x : String),
      s ++ "\n" ++ xs.foldl (fun acc q => acc ++ "\n" ++ q) x =
      xs.foldl (fun acc q => acc ++ "\n" ++ q) (s ++ "\n" ++ x) := by
  intro xs
  induction xs with
  | nil => intro x; rfl
  | cons q qs ih =>
    intro x
    simp only [List.foldl_cons]
    rw [ih (x ++ "\n" ++ q)]
    simp [String.append_assoc]

theorem linesOf_foldl_nl :
    ∀ (xs : List String) (acc : String), (∀ q ∈ xs, '\n' ∉ q.toList) →
      linesOf (xs.foldl (fun a q => a ++ "\n" ++ q) acc) = linesOf acc ++ xs := by
  intro xs
  induction xs with
  | nil => intro acc _; simp
  | cons q qs ih =>
    intro acc h
    simp only [List.foldl_cons]
    rw [ih (acc ++ "\n" ++ q) (fun r hr => h r (List.mem_cons_of_mem q hr))]
    rw [linesOf_append_last (h q (List.mem_cons_self q qs))]
    simp

theorem no_nl_append {a b : String} (ha : '\n' ∉ a.toList) (hb : '\n' ∉ b.toList) :
    '\n' ∉ (a ++ b).toList := by
  rw [strToList_append]
  intro hm
  rcases List.mem_append.mp hm with h | h
  · exact ha h
  · exact hb h

theorem padToWidth_no_nl {s : String} (h : '\n' ∉ s.toList) (w : Nat) :
    '\n' ∉ (padToWidth w s).toList := by
  unfold padToWidth
  refine no_nl_append h ?_
  intro hm
  have : '\n' = ' ' := List.eq_of_mem_replicate hm
  cases this

theorem linesOf_two_nl {a b c : String} (ha : '\n' ∉ a.toList)
    (hb : '\n' ∉ b.toList) (hc : '\n' ∉ c.toList) :
    linesOf (a ++ "\n" ++ (b ++ "\n" ++ c)) = [a, b, c] := by
  have h : a ++ "\n" ++ (b ++ "\n" ++ c) = (a ++ "\n" ++ b) ++ "\n" ++ c := by
    simp [String.append_assoc]
  rw [h, linesOf_append_last hc, linesOf_append_last hb, linesOf_no_nl ha]
  rfl

/-! ## Order lemmas for the renderer sort key -/

theorem NodeKey.le_total (a b : NodeKey) : (NodeKey.le a b || NodeKey.le b a) = true := by
  cases a <;> cases b <;> simp [NodeKey.le, strLe_total]

theorem NodeKey.le_trans {a b c : NodeKey} (h1 : NodeKey.le a b = true)
    (h2 : NodeKey.le b c = true) : NodeKey.le a c = true := by
  cases a <;> cases b <;> cases c <;>
    simp_all [NodeKey.le] <;> exact strLe_trans h1 h2

theorem NodeKey.le_antisymm {a b : NodeKey} (h1 : NodeKey.le a b = true)
    (h2 : NodeKey.le b a = true) : a = b := by
  cases a <;> cases b <;> simp_all [NodeKey.le]
  · exact strLe_antisymm h1 h2
  · exact strLe_antisymm h1 h2

theorem keyIdxLe_total (a b : NodeKey × Nat) : (keyIdxLe a b || keyIdxLe b a) = true := by
  unfold keyIdxLe
  by_cases h : a.1 = b.1
  · rw [if_pos h, if_pos h.symm]
    rcases Nat.le_total a.2 b.2 with h2 | h2 <;> simp [h2]
  · rw [if_neg h, if_neg (fun hc => h hc.symm)]
    exact NodeKey.le_total a.1 b.1

theorem keyIdxLe_trans {a b c : NodeKey × Nat} (h1 : keyIdxLe a b = true)
    (h2 : keyIdxLe b c = true) : keyIdxLe a c = true := by
  unfold keyIdxLe at h1 h2 ⊢
  by_cases hab : a.1 = b.1 <;> by_cases hbc : b.1 = c.1
  · rw [if_pos hab] at h1
    rw [if_pos hbc] at h2
    rw [if_pos (hab.trans hbc)]
    simp only [decide_eq_true_eq] at h1 h2 ⊢
    omega
  · rw [if_pos hab] at h1
    rw [if_neg hbc] at h2
    have hac : ¬ a.1 = c.1 := fun hc => hbc (hab.symm.trans hc)
    rw [if_neg hac, hab]
    exact h2
  · rw [if_neg hab] at h1
    rw [if_pos hbc] at h2
    have hac : ¬ a.1 = c.1 := fun hc => hab (hc.trans hbc.symm)
    rw [if_neg hac, ← hbc]
    exact h1
  · rw [if_neg hab] at h1
    rw [if_neg hbc] at h2
    by_cases hac : a.1 = c.1
    · exfalso
      apply hab
      apply NodeKey.le_antisymm h1
      have h2' : NodeKey.le b.1 a.1 = true := by
        rw [hac]
        exact h2
      exact h2'
    · rw [if_neg hac]
      exact NodeKey.le_trans h1 h2

/-! ## Claim theorems: rendering -/

/-- Options: no exclusions, no hashes, annotations on, split style. -/
def exOptsSplit : DisplayOptions := ⟨[], false, true, AnnotationStyle.split⟩

/-- A graph holding a `zeta` registry node and an editable sorted as
`./alpha-project`. -/
def exGraphZ : ResolutionGraph :=
  ⟨⟨[Dist.registry "zeta" 1, Dist.editable "alphaproj" ⟨"./alpha-project"⟩], []⟩, [],
   [("alphaproj", ⟨"./alpha-project"⟩, ⟨[]⟩)], []⟩

/-- C7: the rendered node order (the sort the renderer applies to the
collected nodes) is sorted by `(NodeKey, index)` — every editable key
strictly before every distribution key, lexicographic within each group,
node-creation order breaking ties — and is a permutation of the collected
nodes; concretely, `{Distribution zeta, Editable ./alpha-project}` renders
the editable first. -/
theorem c7_sort_order :
    (∀ (nodes : List Dist) (eget : PackageName → Option (LocalEditable × Metadata21))
        (noEmit : List PackageName),
      (sortNodes (collectNodes nodes eget noEmit)).Pairwise
        (fun a b => keyIdxLe (a.2.key, a.1) (b.2.key, b.1) = true) ∧
      (sortNodes (collectNodes nodes eget noEmit)).Perm
        (collectNodes nodes eget noEmit)) ∧
    (∀ (s : String) (n : PackageName) (i j : Nat),
      keyIdxLe (NodeKey.editable s, i) (NodeKey.distribution n, j) = true ∧
      keyIdxLe (NodeKey.distribution n, j) (NodeKey.editable s, i) = false) ∧
    displayGraph exGraphZ exOptsSplit = "-e ./alpha-project\nzeta==1\n" := by
  refine ⟨?_, ?_, by decide⟩
  · intro nodes eget noEmit
    constructor
    · unfold sortNodes
      exact @sortBy_sorted (Nat × RenderNode)
        (fun a b => keyIdxLe (a.2.key, a.1) (b.2.key, b.1))
        (fun a b => keyIdxLe_total (a.2.key, a.1) (b.2.key, b.1))
        (fun a b c h1 h2 => keyIdxLe_trans h1 h2)
        (collectNodes nodes eget noEmit)
    · unfold sortNodes
      exact sortBy_perm _ _
  · intro s n i j
    constructor
    · simp [keyIdxLe, NodeKey.le]
    · simp [keyIdxLe, NodeKey.le]

/-- A graph where `x` has exactly one dependent `a`. -/
def exGraphS1 : ResolutionGraph :=
  ⟨⟨[Dist.registry "x" 1, Dist.registry "a" 2], [(1, 0, ⟨0, 5⟩)]⟩, [], [], []⟩

/-- C8 counterexample: with split style, a node with exactly one dependent
renders the `# via` comment on its own following line — the requirement line
`x==1` carries no inline trailing comment, refuting the claimed inline
form. -/
theorem c8_counterexample :
    displayGraph exGraphS1 exOptsSplit = "a==2\nx==1\n    # via a\n" ∧
    linesOf (displayGraph exGraphS1 exOptsSplit) =
      ["a==2", "x==1", "    # via a", ""] := by
  constructor
  · decide
  · decide

/-- C8 (amended): with annotations enabled, split style and hashes off, a
node with no dependents gets no annotation; exactly one dependent yields a
single comment line `    # via dep` on the line after the requirement;
two or more dependents yield a `    # via` line followed by one
`    #   dep` line per dependent (each emitted line trailing-trimmed). -/
theorem c8_split_annotation_layout
    (nodes : List Dist) (edges : List (Nat × Nat × VRange))
    (hget : PackageName → Option (List String)) (opts : DisplayOptions)
    (p : Nat × RenderNode)
    (hann : opts.include_annotations = true)
    (hstyle : opts.annotation_style = AnnotationStyle.split)
    (hhash : opts.show_hashes = false)
    (base : String)
    (hbase : base = (match p.2 with
      | RenderNode.distribution _ dist => dist.verbatim
      | RenderNode.editable _ ed => "-e " ++ ed.verbatim))
    (hnl : '\n' ∉ base.toList)
    (hdeps : ∀ d ∈ dependentNames nodes edges p.1, '\n' ∉ d.toList) :
    nodeLines nodes edges hget opts p =
      (match dependentNames nodes edges p.1 with
       | [] => [base]
       | [d] => [trimEndS (padToWidth 24 base), trimEndS ("    # via " ++ d)]
       | ds => [trimEndS (padToWidth 24 base), trimEndS "    # via"] ++
           ds.map (fun d => trimEndS ("    #   " ++ d))) := by
  unfold nodeLines
  simp only [hhash, hann, hstyle, Bool.false_eq_true, if_false, if_true, ← hbase]
  cases hd : dependentNames nodes edges p.1 with
  | nil => simp [annotationFor]
  | cons d1 rest =>
    cases rest with
    | nil =>
      simp only [annotationFor]
      have hq : '\n' ∉ ("    # via " ++ d1).toList :=
        no_nl_append (by decide)
          (hdeps d1 (by rw [hd]; exact List.mem_cons_self _ _))
      rw [linesOf_append_last hq, linesOf_no_nl (padToWidth_no_nl hnl 24)]
      simp
    | cons d2 ds2 =>
      simp only [annotationFor]
      have hvia : ("    # via\n" : String) = "    # via" ++ "\n" := by decide
      rw [hvia]
      simp only [List.map_cons]
      rw [joinWith]
      have hmemdep : ∀ d, d ∈ d1 :: d2 :: ds2 → '\n' ∉ d.toList := by
        intro d hdm
        apply hdeps
        rw [hd]
        exact hdm
      have hparts : ∀ q ∈ ((d2 :: ds2).map (fun d => "    #   " ++ d)),
          '\n' ∉ q.toList := by
        intro q hq
        rw [List.mem_map] at hq
        obtain ⟨d, hdm, rfl⟩ := hq
        exact no_nl_append (by decide)
          (hmemdep d (List.mem_cons_of_mem d1 hdm))
      have hx : '\n' ∉ ("    #   " ++ d1).toList :=
        no_nl_append (by decide) (hmemdep d1 (List.mem_cons_self _ _))
      simp only [List.map_cons] at hparts
      rw [append_foldl_nl "    # via"]
      rw [append_foldl_nl (padToWidth 24 base)]
      rw [linesOf_foldl_nl _ _ hparts]
      rw [linesOf_two_nl (padToWidth_no_nl hnl 24)
        (show ('\n' : Char) ∉ "    # via".toList by decide) hx]
      simp [List.map_map, Function.comp]

/-- C8 witness: the layout applied to node `x` of `exGraphS1`. -/
theorem c8_witness :
    exOptsSplit.include_annotations = true ∧
    exOptsSplit.annotation_style = AnnotationStyle.split ∧
    exOptsSplit.show_hashes = false ∧
    nodeLines exGraphS1.petgraph.nodes exGraphS1.petgraph.edges
        (fun n => assocLookup exGraphS1.hashes n) exOptsSplit
        (0, RenderNode.distribution "x" (Dist.registry "x" 1)) =
      [trimEndS (padToWidth 24 "x==1"), trimEndS ("    # via " ++ "a")] :=
  ⟨rfl, rfl, rfl,
   c8_split_annotation_layout exGraphS1.petgraph.nodes exGraphS1.petgraph.edges
     (fun n => assocLookup exGraphS1.hashes n) exOptsSplit
     (0, RenderNode.distribution "x" (Dist.registry "x" 1))
     rfl rfl rfl "x==1" (by decide) (by decide) (by decide)⟩

/-- C9: rendering reads the hash index and the editable registry only
through point lookups, so two resolution graphs with the same petgraph and
lookup-equivalent hash/editable tables render to byte-identical output;
repeated invocations and upstream map-iteration order therefore cannot
change the bytes. -/
theorem c9_deterministic_rendering (g g' : ResolutionGraph) (opts : DisplayOptions)
    (hpg : g.petgraph = g'.petgraph)
    (hh : ∀ n, assocLookup g.hashes n = assocLookup g'.hashes n)
    (he : ∀ n, Editables.get g.editables n = Editables.get g'.editables n) :
    displayGraph g opts = displayGraph g' opts := by
  unfold displayGraph
  rw [hpg]
  have h1 : (fun n => assocLookup g.hashes n) = (fun n => assocLookup g'.hashes n) :=
    funext hh
  have h2 : (fun n => Editables.get g.editables n) =
      (fun n => Editables.get g'.editables n) := funext he
  rw [h1, h2]

/-- Hash table in one insertion order. -/
def exHashesOrd1 : List (PackageName × List String) := [("a", ["h1"]), ("b", ["h2"])]

/-- The same hash table in the opposite order. -/
def exHashesOrd2 : List (PackageName × List String) := [("b", ["h2"]), ("a", ["h1"])]

/-- A graph carrying `exHashesOrd1`. -/
def exGraphHa : ResolutionGraph :=
  ⟨⟨[Dist.registry "a" 1, Dist.registry "b" 2], []⟩, exHashesOrd1, [], []⟩

/-- The same graph carrying `exHashesOrd2`. -/
def exGraphHb : ResolutionGraph :=
  ⟨⟨[Dist.registry "a" 1, Dist.registry "b" 2], []⟩, exHashesOrd2, [], []⟩

/-- Options showing hashes and annotations. -/
def exOptsHashes : DisplayOptions := ⟨[], true, true, AnnotationStyle.split⟩

/-- C9 witness: reordering the hash table does not change the bytes. -/
theorem c9_witness :
    exGraphHa.petgraph = exGraphHb.petgraph ∧
    (∀ n, assocLookup exGraphHa.hashes n = assocLookup exGraphHb.hashes n) ∧
    (∀ n, Editables.get exGraphHa.editables n = Editables.get exGraphHb.editables n) ∧
    displayGraph exGraphHa exOptsHashes = displayGraph exGraphHb exOptsHashes := by
  have hh : ∀ n, assocLookup exGraphHa.hashes n = assocLookup exGraphHb.hashes n := by
    intro n
    show assocLookup exHashesOrd1 n = assocLookup exHashesOrd2 n
    unfold exHashesOrd1 exHashesOrd2 assocLookup
    by_cases ha : "a" = n
    · by_cases hb : "b" = n
      · exact absurd (ha.trans hb.symm) (by decide)
      · simp [List.find?, ha, hb]
    · by_cases hb : "b" = n
      · simp [List.find?, ha, hb]
      · simp [List.find?, ha, hb]
  have he : ∀ n, Editables.get exGraphHa.editables n =
      Editables.get exGraphHb.editables n := fun n => rfl
  exact ⟨rfl, hh, he, c9_deterministic_rendering exGraphHa exGraphHb exOptsHashes rfl hh he⟩

end UvResolve
